import Mathlib

set_option maxHeartbeats 1000000

/-!
Verification of the causal-analysis engine: vector-clock assignment
(`compute_vector_clock`), causal-graph construction (`build_causal_edges`,
`is_causally_before`) and transitive reduction (`compute_reachability`,
`reduce_transitive_edges`), as a shallow embedding of the Python sources.
Python dicts are modelled as association lists over `String` keys in
insertion order, Python sets as lists with membership semantics, raised
exceptions as `Except` errors.
-/

namespace FDS

/-! ## Association-list primitives (model of Python dicts) -/

abbrev AList (α : Type) := List (String × α)

def lookupA {α : Type} (m : AList α) (k : String) : Option α :=
  (m.find? (fun kv => kv.1 == k)).map (·.2)

def hasKeyA {α : Type} (m : AList α) (k : String) : Bool :=
  (m.find? (fun kv => kv.1 == k)).isSome

def keysA {α : Type} (m : AList α) : List String := m.map (·.1)

/-- Python dict assignment `m[k] = v`: overwrite in place, else append. -/
def assocSet {α : Type} : AList α → String → α → AList α
  | [], k, v => [(k, v)]
  | kv :: rest, k, v =>
    if kv.1 = k then (kv.1, v) :: rest else kv :: assocSet rest k v

theorem lookupA_nil {α : Type} (k : String) : lookupA ([] : AList α) k = none := rfl

theorem lookupA_cons {α : Type} (kv : String × α) (m : AList α) (k : String) :
    lookupA (kv :: m) k = if kv.1 = k then some kv.2 else lookupA m k := by
  unfold lookupA
  by_cases h : kv.1 = k
  · rw [List.find?_cons_of_pos _ (by simp [h]), if_pos h]
    rfl
  · rw [List.find?_cons_of_neg _ (by simp [h]), if_neg h]

theorem lookupA_assocSet {α : Type} (m : AList α) (k : String) (v : α) (x : String) :
    lookupA (assocSet m k v) x = if x = k then some v else lookupA m x := by
  induction m with
  | nil =>
    simp only [assocSet]
    rw [lookupA_cons, lookupA_nil]
    by_cases h : x = k
    · subst h; simp
    · have h' : ¬(k = x) := fun hh => h hh.symm
      simp [h, h']
  | cons kv rest ih =>
    simp only [assocSet]
    by_cases hk : kv.1 = k
    · rw [if_pos hk]
      subst hk
      rw [lookupA_cons, lookupA_cons]
      by_cases hx : kv.1 = x
      · subst hx; simp
      · have hx' : ¬(x = kv.1) := fun hh => hx hh.symm
        simp [hx, hx']
    · rw [if_neg hk]
      rw [lookupA_cons, lookupA_cons, ih]
      by_cases hx : kv.1 = x
      · subst hx
        have hxk : ¬(kv.1 = k) := hk
        simp [hxk]
      · simp [hx]

theorem lookupA_isSome_iff {α : Type} (m : AList α) (k : String) :
    (lookupA m k).isSome = true ↔ k ∈ keysA m := by
  induction m with
  | nil => simp [lookupA, keysA]
  | cons kv rest ih =>
    rw [lookupA_cons]
    by_cases h : kv.1 = k
    · simp [keysA, h]
    · have h' : ¬(k = kv.1) := fun hh => h hh.symm
      rw [if_neg h]
      constructor
      · intro hh
        have hmem := ih.mp hh
        simp only [keysA, List.map_cons, List.mem_cons] at hmem ⊢
        exact Or.inr hmem
      · intro hh
        apply ih.mpr
        simp only [keysA, List.map_cons, List.mem_cons] at hh ⊢
        rcases hh with hh | hh
        · exact absurd hh h'
        · exact hh

theorem lookupA_eq_none_of_not_mem {α : Type} {m : AList α} {k : String}
    (h : k ∉ keysA m) : lookupA m k = none := by
  rcases h' : lookupA m k with _ | v
  · rfl
  · exact absurd ((lookupA_isSome_iff m k).mp (by simp [h'])) h

/-- Lookup in a map built by tabulating a function over a key list. -/
theorem lookupA_map_self {α : Type} (l : List String) (g : String → α) (x : String) :
    lookupA (l.map (fun u => (u, g u))) x =
      if x ∈ l then some (g x) else none := by
  induction l with
  | nil => simp [lookupA]
  | cons a rest ih =>
    simp only [List.map_cons]
    rw [lookupA_cons]
    by_cases h : a = x
    · subst h; simp
    · simp only [h, if_false]
      rw [ih]
      by_cases hx : x ∈ rest <;> simp [hx, List.mem_cons, h, Ne.symm h]

/-! ## Causal comparator (`src/src/graph/builder.py`, `is_causally_before`) -/

/-- `is_causally_before(pre_clock, post_clock)`: all components `<=` and at
least one component `<`, over `zip(pre_clock, post_clock)`. -/
def is_causally_before (pre post : List Int) : Bool :=
  ((pre.zip post).all fun pr => decide (pr.1 ≤ pr.2)) &&
    ((pre.zip post).any fun pr => decide (pr.1 < pr.2))

theorem zip_all_le_iff :
    ∀ (A B : List Int), A.length = B.length →
      (((A.zip B).all fun pr => decide (pr.1 ≤ pr.2)) = true ↔
        ∀ i, i < A.length → A.getD i 0 ≤ B.getD i 0) := by
  intro A
  induction A with
  | nil => intro B h; simp
  | cons a A' ih =>
    intro B h
    cases B with
    | nil => simp at h
    | cons b B' =>
      simp only [List.length_cons, Nat.succ_inj] at h
      simp only [List.zip_cons_cons, List.all_cons, Bool.and_eq_true, decide_eq_true_eq]
      rw [ih B' h]
      constructor
      · rintro ⟨h0, hrest⟩ i hi
        cases i with
        | zero => simpa using h0
        | succ j =>
          simp only [List.getD_cons_succ]
          exact hrest j (Nat.lt_of_succ_lt_succ hi)
      · intro hall
        refine ⟨by simpa using hall 0 (Nat.succ_pos _), fun j hj => ?_⟩
        have := hall (j + 1) (Nat.succ_lt_succ hj)
        simpa using this

theorem zip_any_lt_iff :
    ∀ (A B : List Int), A.length = B.length →
      (((A.zip B).any fun pr => decide (pr.1 < pr.2)) = true ↔
        ∃ i, i < A.length ∧ A.getD i 0 < B.getD i 0) := by
  intro A
  induction A with
  | nil => intro B h; simp
  | cons a A' ih =>
    intro B h
    cases B with
    | nil => simp at h
    | cons b B' =>
      simp only [List.length_cons, Nat.succ_inj] at h
      simp only [List.zip_cons_cons, List.any_cons, Bool.or_eq_true, decide_eq_true_eq]
      rw [ih B' h]
      constructor
      · rintro (h0 | ⟨j, hj, hlt⟩)
        · exact ⟨0, Nat.succ_pos _, by simpa using h0⟩
        · exact ⟨j + 1, Nat.succ_lt_succ hj, by simpa using hlt⟩
      · rintro ⟨i, hi, hlt⟩
        cases i with
        | zero => exact Or.inl (by simpa using hlt)
        | succ j =>
          exact Or.inr ⟨j, Nat.lt_of_succ_lt_succ hi, by simpa using hlt⟩

/-- Positional characterisation of the comparator on equal-length clocks. -/
theorem is_causally_before_iff (A B : List Int) (h : A.length = B.length) :
    is_causally_before A B = true ↔
      (∀ i, i < A.length → A.getD i 0 ≤ B.getD i 0) ∧
        ∃ i, i < A.length ∧ A.getD i 0 < B.getD i 0 := by
  unfold is_causally_before
  rw [Bool.and_eq_true, zip_all_le_iff A B h, zip_any_lt_iff A B h]

theorem mem_zip_self_eq : ∀ (C : List Int) (p : Int × Int), p ∈ C.zip C → p.1 = p.2 := by
  intro C
  induction C with
  | nil => intro p hp; simp at hp
  | cons c C' ih =>
    intro p hp
    rcases (List.mem_cons).mp hp with h | h
    · subst h; rfl
    · exact ih p h

theorem is_causally_before_self (C : List Int) : is_causally_before C C = false := by
  unfold is_causally_before
  have : ((C.zip C).any fun pr => decide (pr.1 < pr.2)) = false := by
    rw [Bool.eq_false_iff]
    intro h
    rw [List.any_eq_true] at h
    rcases h with ⟨p, hp, hlt⟩
    exact absurd (of_decide_eq_true hlt) (by simp [mem_zip_self_eq C p hp])
  simp [this]

theorem is_causally_before_antisymm {A B : List Int} (h : A.length = B.length)
    (hab : is_causally_before A B = true) : is_causally_before B A = false := by
  rw [Bool.eq_false_iff]
  intro hba
  rcases (is_causally_before_iff A B h).mp hab with ⟨_, i, hi, hstrict⟩
  rcases (is_causally_before_iff B A h.symm).mp hba with ⟨hle', _⟩
  have := hle' i (h ▸ hi)
  omega

theorem is_causally_before_trans {A B C : List Int}
    (hab : A.length = B.length) (hbc : B.length = C.length)
    (h1 : is_causally_before A B = true) (h2 : is_causally_before B C = true) :
    is_causally_before A C = true := by
  rcases (is_causally_before_iff A B hab).mp h1 with ⟨le1, _⟩
  rcases (is_causally_before_iff B C hbc).mp h2 with ⟨le2, i, hi, lt2⟩
  refine (is_causally_before_iff A C (hab.trans hbc)).mpr ⟨?_, ?_⟩
  · intro j hj
    exact le_trans (le1 j hj) (le2 j (hab ▸ hj))
  · refine ⟨i, by omega, ?_⟩
    have := le1 i (by omega)
    omega

/-! ## Duplicate comparator (`src/task1_23/Build_G.py`, `causally_precedes`) -/

/-- The for-loop of `causally_precedes`, with its `break`: on the first pair
with `i < j` it stops with `less = False`; a pair with `i > j` sets
`strickly_less = True`. -/
def cpLoop : List (Int × Int) → Bool → Bool → Bool × Bool
  | [], less, strict => (less, strict)
  | (i, j) :: rest, less, strict =>
    if i < j then (false, strict)
    else cpLoop rest less (if i > j then true else strict)

/-- `causally_precedes(pre_node_vector, post_node_vector)` from
`src/task1_23/Build_G.py`. -/
def causally_precedes (pre post : List Int) : Bool :=
  let st := cpLoop (pre.zip post) true false
  st.1 && st.2

theorem cpLoop_spec :
    ∀ (l : List (Int × Int)) (s : Bool),
      ((cpLoop l true s).1 && (cpLoop l true s).2) =
        ((l.all fun p => decide (p.2 ≤ p.1)) &&
          (s || l.any fun p => decide (p.2 < p.1))) := by
  intro l
  induction l with
  | nil => intro s; simp [cpLoop]
  | cons p rest ih =>
    intro s
    rcases p with ⟨i, j⟩
    by_cases hlt : i < j
    · have : ¬(j ≤ i) := by omega
      simp [cpLoop, hlt, this]
    · have hji : j ≤ i := by omega
      by_cases hgt : i > j
      · have hjlt : j < i := hgt
        simp only [cpLoop, if_neg hlt, if_pos hgt]
        rw [ih]
        simp [hji, hjlt]
      · have hij : i = j := by omega
        subst hij
        simp only [cpLoop, if_neg hlt, if_neg hgt]
        rw [ih]
        simp

/-- `causally_precedes` computes the REVERSE of `is_causally_before`:
its comparisons are written in the wrong direction. -/
theorem causally_precedes_eq_reverse (A B : List Int) :
    causally_precedes A B = is_causally_before B A := by
  unfold causally_precedes is_causally_before
  rw [cpLoop_spec]
  have hswap : B.zip A = (A.zip B).map Prod.swap := (List.zip_swap A B).symm
  rw [hswap, List.all_map, List.any_map]
  rfl

/-! ## Causal graph builder (`src/src/graph/builder.py`, `build_causal_edges`) -/

/-- Edge dictionaries `Dict[str, Set[str]]` / `Dict[str, List[str]]`. -/
abbrev EdgeMap := AList (List String)

def lookupE (m : EdgeMap) (k : String) : List String := (lookupA m k).getD []

/-- `graph[e]` on a defaultdict / `{n: set() for n in nodes}` entry creation:
ensure the key is present (appended at the end in insertion order). -/
def touchKey (g : EdgeMap) (e : String) : EdgeMap :=
  if hasKeyA g e then g else g ++ [(e, [])]

/-- Python `edges[u].add(v)` (set insertion, no-op when already present). -/
def setAdd (m : EdgeMap) (u v : String) : EdgeMap :=
  m.map fun kv => if kv.1 = u then (kv.1, if v ∈ kv.2 then kv.2 else kv.2 ++ [v]) else kv

/-- `{node: set() for node in event_nodes}`. -/
def initEdges (nodes : List String) : EdgeMap := nodes.foldl touchKey []

/-- `build_causal_edges(event_nodes, vector_clocks)`: for every ordered pair
of positions with distinct indices, add an edge when the comparator holds. -/
def build_causal_edges (nodes : List String) (clocks : String → List Int) : EdgeMap :=
  nodes.enum.foldl
    (fun m pi =>
      nodes.enum.foldl
        (fun m' pj =>
          if pi.1 ≠ pj.1 ∧ is_causally_before (clocks pi.2) (clocks pj.2) = true then
            setAdd m' pi.2 pj.2
          else m') m)
    (initEdges nodes)

theorem lookupA_append {α : Type} (m₁ m₂ : AList α) (k : String) :
    lookupA (m₁ ++ m₂) k = (lookupA m₁ k).or (lookupA m₂ k) := by
  unfold lookupA
  rw [List.find?_append]
  cases h : List.find? (fun kv => kv.1 == k) m₁ <;> simp [Option.or]

theorem lookupA_touchKey (g : EdgeMap) (e x : String) :
    lookupA (touchKey g e) x = (lookupA g x).or (if x = e then some [] else none) := by
  unfold touchKey
  by_cases h : hasKeyA g e
  · rw [if_pos h]
    by_cases hx : x = e
    · subst hx
      have : (lookupA g x).isSome := by
        unfold hasKeyA at h
        unfold lookupA
        simpa using h
      rcases hs : lookupA g x with _ | w
      · rw [hs] at this; simp at this
      · simp [Option.or]
    · simp [hx]
  · rw [if_neg h]
    rw [lookupA_append]
    congr 1
    rw [lookupA_cons, lookupA_nil]
    by_cases hx : x = e
    · subst hx; simp
    · have : ¬(e = x) := fun hh => hx hh.symm
      simp [this, hx]

theorem lookupA_foldl_touch (l : List String) :
    ∀ (g : EdgeMap) (x : String),
      lookupA (l.foldl touchKey g) x =
        (lookupA g x).or (if x ∈ l then some [] else none) := by
  induction l with
  | nil => intro g x; simp
  | cons a rest ih =>
    intro g x
    rw [List.foldl_cons, ih, lookupA_touchKey, Option.or_assoc]
    congr 1
    by_cases hxa : x = a
    · subst hxa; simp [Option.or]
    · by_cases hxr : x ∈ rest <;> simp [hxa, hxr, Option.or]

theorem lookupA_initEdges (nodes : List String) (x : String) :
    lookupA (initEdges nodes) x = if x ∈ nodes then some [] else none := by
  unfold initEdges
  rw [lookupA_foldl_touch]
  simp [lookupA_nil, Option.or]

theorem lookupA_setAdd (m : EdgeMap) (u v x : String) :
    lookupA (setAdd m u v) x =
      if x = u then (lookupA m x).map (fun l => if v ∈ l then l else l ++ [v])
      else lookupA m x := by
  induction m with
  | nil => by_cases h : x = u <;> simp [setAdd, lookupA_nil, h]
  | cons kv rest ih =>
    simp only [setAdd, List.map_cons] at ih ⊢
    by_cases hku : kv.1 = u
    · by_cases hkx : kv.1 = x
      · subst hkx
        simp [lookupA_cons, hku]
      · have hxu : ¬(x = u) := fun hh => hkx (by rw [hku, ← hh])
        have hux : ¬(u = x) := fun hh => hxu hh.symm
        simp [lookupA_cons, hku, hkx, hxu, hux, ih]
    · by_cases hkx : kv.1 = x
      · subst hkx
        simp [lookupA_cons, hku]
      · simp [lookupA_cons, hku, hkx, ih]

theorem isSome_lookupA_setAdd (m : EdgeMap) (u v x : String) :
    (lookupA (setAdd m u v) x).isSome = (lookupA m x).isSome := by
  rw [lookupA_setAdd]
  by_cases h : x = u
  · rw [if_pos h]; rcases lookupA m x with _ | w <;> rfl
  · rw [if_neg h]

theorem mem_lookupE_setAdd (m : EdgeMap) (u v x y : String) :
    y ∈ lookupE (setAdd m u v) x ↔
      y ∈ lookupE m x ∨ (x = u ∧ y = v ∧ (lookupA m u).isSome = true) := by
  unfold lookupE
  rw [lookupA_setAdd]
  by_cases h : x = u
  · subst h
    rw [if_pos rfl]
    rcases hs : lookupA m x with _ | l
    · simp
    · simp only [Option.map_some', Option.getD_some, Option.isSome_some]
      by_cases hv : v ∈ l
      · rw [if_pos hv]
        constructor
        · intro hy; exact Or.inl hy
        · rintro (hy | ⟨_, rfl, _⟩)
          · exact hy
          · exact hv
      · rw [if_neg hv]
        simp only [List.mem_append, List.mem_singleton]
        constructor
        · rintro (hy | rfl)
          · exact Or.inl hy
          · exact Or.inr ⟨trivial, rfl, trivial⟩
        · rintro (hy | ⟨_, rfl, _⟩)
          · exact Or.inl hy
          · exact Or.inr rfl
  · simp [h]

theorem isSome_inner_fold (cl : String → List Int) (pi : Nat × String) :
    ∀ (l : List (Nat × String)) (m : EdgeMap) (x : String),
      (lookupA
          (l.foldl (fun acc pj =>
            if pi.1 ≠ pj.1 ∧ is_causally_before (cl pi.2) (cl pj.2) = true then
              setAdd acc pi.2 pj.2 else acc) m) x).isSome = (lookupA m x).isSome := by
  intro l
  induction l with
  | nil => intro m x; rfl
  | cons pj rest ih =>
    intro m x
    rw [List.foldl_cons, ih]
    by_cases hg : pi.1 ≠ pj.1 ∧ is_causally_before (cl pi.2) (cl pj.2) = true
    · rw [if_pos hg, isSome_lookupA_setAdd]
    · rw [if_neg hg]

theorem mem_inner_fold (cl : String → List Int) (pi : Nat × String) :
    ∀ (l : List (Nat × String)) (m : EdgeMap) (x y : String),
      (y ∈ lookupE
          (l.foldl (fun acc pj =>
            if pi.1 ≠ pj.1 ∧ is_causally_before (cl pi.2) (cl pj.2) = true then
              setAdd acc pi.2 pj.2 else acc) m) x ↔
        y ∈ lookupE m x ∨
          ((lookupA m pi.2).isSome = true ∧ x = pi.2 ∧
            ∃ pj ∈ l, pi.1 ≠ pj.1 ∧ is_causally_before (cl pi.2) (cl pj.2) = true ∧
              y = pj.2)) := by
  intro l
  induction l with
  | nil => intro m x y; simp
  | cons pj rest ih =>
    intro m x y
    rw [List.foldl_cons]
    by_cases hg : pi.1 ≠ pj.1 ∧ is_causally_before (cl pi.2) (cl pj.2) = true
    · rw [if_pos hg, ih, mem_lookupE_setAdd, isSome_lookupA_setAdd]
      constructor
      · rintro ((hy | ⟨hx, hyv, hsome⟩) | ⟨hsome, hx, pj', hmem, hne, hb, hy⟩)
        · exact Or.inl hy
        · exact Or.inr ⟨hsome, hx, pj, List.mem_cons_self _ _, hg.1, hg.2, hyv⟩
        · exact Or.inr ⟨hsome, hx, pj', List.mem_cons_of_mem _ hmem, hne, hb, hy⟩
      · rintro (hy | ⟨hsome, hx, pj', hmem, hne, hb, hy⟩)
        · exact Or.inl (Or.inl hy)
        · rcases List.mem_cons.mp hmem with rfl | hmem'
          · exact Or.inl (Or.inr ⟨hx, hy, hsome⟩)
          · exact Or.inr ⟨hsome, hx, pj', hmem', hne, hb, hy⟩
    · rw [if_neg hg, ih]
      constructor
      · rintro (hy | ⟨hsome, hx, pj', hmem, hne, hb, hy⟩)
        · exact Or.inl hy
        · exact Or.inr ⟨hsome, hx, pj', List.mem_cons_of_mem _ hmem, hne, hb, hy⟩
      · rintro (hy | ⟨hsome, hx, pj', hmem, hne, hb, hy⟩)
        · exact Or.inl hy
        · rcases List.mem_cons.mp hmem with rfl | hmem'
          · exact absurd ⟨hne, hb⟩ hg
          · exact Or.inr ⟨hsome, hx, pj', hmem', hne, hb, hy⟩

theorem mem_outer_fold (cl : String → List Int) (inner : List (Nat × String)) :
    ∀ (l : List (Nat × String)) (m : EdgeMap) (x y : String),
      (y ∈ lookupE
          (l.foldl (fun m pi =>
            inner.foldl (fun acc pj =>
              if pi.1 ≠ pj.1 ∧ is_causally_before (cl pi.2) (cl pj.2) = true then
                setAdd acc pi.2 pj.2 else acc) m) m) x ↔
        y ∈ lookupE m x ∨
          ∃ pi ∈ l, (lookupA m pi.2).isSome = true ∧ x = pi.2 ∧
            ∃ pj ∈ inner, pi.1 ≠ pj.1 ∧ is_causally_before (cl pi.2) (cl pj.2) = true ∧
              y = pj.2) := by
  intro l
  induction l with
  | nil => intro m x y; simp
  | cons pi rest ih =>
    intro m x y
    rw [List.foldl_cons, ih, mem_inner_fold]
    simp only [isSome_inner_fold]
    constructor
    · rintro ((hy | ⟨hsome, hx, pj, hpj, hne, hb, hy⟩) | ⟨pi', hpi', hsome, hx, pj, hpj, hne, hb, hy⟩)
      · exact Or.inl hy
      · exact Or.inr ⟨pi, List.mem_cons_self _ _, hsome, hx, pj, hpj, hne, hb, hy⟩
      · exact Or.inr ⟨pi', List.mem_cons_of_mem _ hpi', hsome, hx, pj, hpj, hne, hb, hy⟩
    · rintro (hy | ⟨pi', hpi', hsome, hx, pj, hpj, hne, hb, hy⟩)
      · exact Or.inl (Or.inl hy)
      · rcases List.mem_cons.mp hpi' with rfl | hmem'
        · exact Or.inl (Or.inr ⟨hsome, hx, pj, hpj, hne, hb, hy⟩)
        · exact Or.inr ⟨pi', hmem', hsome, hx, pj, hpj, hne, hb, hy⟩

theorem lookupE_initEdges (nodes : List String) (x : String) :
    lookupE (initEdges nodes) x = [] := by
  unfold lookupE
  rw [lookupA_initEdges]
  by_cases h : x ∈ nodes <;> simp [h]

/-- Membership characterisation of the full causal edge set: `v` is a direct
successor of `u` iff both are event nodes and the comparator holds. -/
theorem mem_build_causal_edges (nodes : List String) (cl : String → List Int)
    (u v : String) :
    v ∈ lookupE (build_causal_edges nodes cl) u ↔
      u ∈ nodes ∧ v ∈ nodes ∧ is_causally_before (cl u) (cl v) = true := by
  unfold build_causal_edges
  rw [mem_outer_fold]
  constructor
  · rintro (hy | ⟨pi, hpi, hsome, rfl, pj, hpj, hne, hb, rfl⟩)
    · rw [lookupE_initEdges] at hy
      simp at hy
    · have hu : pi.2 ∈ nodes :=
        List.mem_iff_getElem?.mpr ⟨pi.1, List.mem_enum_iff_getElem?.mp hpi⟩
      have hv : pj.2 ∈ nodes :=
        List.mem_iff_getElem?.mpr ⟨pj.1, List.mem_enum_iff_getElem?.mp hpj⟩
      exact ⟨hu, hv, hb⟩
  · rintro ⟨hu, hv, hb⟩
    have hne' : u ≠ v := by
      intro hh
      rw [hh, is_causally_before_self] at hb
      exact Bool.noConfusion hb
    obtain ⟨i, hi⟩ := List.mem_iff_getElem?.mp hu
    obtain ⟨j, hj⟩ := List.mem_iff_getElem?.mp hv
    have hij : i ≠ j := by
      intro hh
      rw [hh] at hi
      exact hne' (Option.some.inj (hi.symm.trans hj))
    refine Or.inr ⟨(i, u), List.mem_enum_iff_getElem?.mpr hi, ?_, rfl,
      (j, v), List.mem_enum_iff_getElem?.mpr hj, hij, hb, rfl⟩
    rw [lookupA_initEdges]
    simp [hu]

/-! ## Transitive reduction (`src/src/graph/reduction.py`) -/

/-- The inner `dfs(start, current, visited)` of `compute_reachability`: walk
the neighbours of `current`, adding unvisited ones to the shared visited set
and recursing into them.  The Python recursion depth is bounded by the number
of nodes; the embedding makes that bound explicit as fuel (one unit per
nested call), and `compute_reachability` supplies `|keys| + 1`, which is
shown sufficient (`dfs_fuel_stable`). -/
def dfs (E : EdgeMap) : Nat → String → List String → List String
  | 0, _, vis => vis
  | fuel + 1, current, vis =>
    (lookupE E current).foldl
      (fun v nb => if nb ∈ v then v else dfs E fuel nb (nb :: v)) vis

/-- `compute_reachability(edges)`: for each key `node`, `reach[node]` is the
visited set of `dfs(node, node, set())`. -/
def compute_reachability (E : EdgeMap) : EdgeMap :=
  (keysA E).map (fun u => (u, dfs E ((keysA E).length + 1) u []))

/-- `reduce_transitive_edges(edges)`: keep edge `u → v` unless some other
direct successor `w` of `u` reaches `v`. -/
def reduce_transitive_edges (E : EdgeMap) : EdgeMap :=
  (keysA E).map (fun u =>
    (u, (lookupE E u).filter (fun v =>
      !((lookupE E u).any (fun w =>
        decide (w ≠ v) && decide (v ∈ lookupE (compute_reachability E) w))))))

theorem mem_lookupE_key {E : EdgeMap} {u v : String} (h : v ∈ lookupE E u) :
    u ∈ keysA E := by
  by_cases hk : u ∈ keysA E
  · exact hk
  · rw [lookupE, lookupA_eq_none_of_not_mem hk] at h
    simp at h

theorem foldl_subset_of_step (step : List String → String → List String)
    (h : ∀ acc a, acc ⊆ step acc a) :
    ∀ (l : List String) (init : List String), init ⊆ l.foldl step init := by
  intro l
  induction l with
  | nil => intro init x hx; exact hx
  | cons a rest ihl =>
    intro init
    exact (h init a).trans (ihl (step init a))

theorem subset_dfs (E : EdgeMap) :
    ∀ (fuel : Nat) (c : String) (vis : List String), vis ⊆ dfs E fuel c vis := by
  intro fuel
  induction fuel with
  | zero => intro c vis x hx; exact hx
  | succ f ih =>
    intro c vis
    refine foldl_subset_of_step _ ?_ (lookupE E c) vis
    intro acc a
    show acc ⊆ if a ∈ acc then acc else dfs E f a (a :: acc)
    by_cases h : a ∈ acc
    · rw [if_pos h]
      exact List.Subset.refl acc
    · rw [if_neg h]
      exact (List.subset_cons_self a acc).trans (ih a (a :: acc))

/-- Soundness of one `dfs` run: everything it adds lies in any set `S` that
contains `current`'s neighbours and is closed under the edge relation. -/
theorem dfs_subset_of_closed (E : EdgeMap) (S : String → Prop)
    (hS : ∀ w, S w → ∀ y ∈ lookupE E w, S y) :
    ∀ (fuel : Nat) (c : String) (vis : List String),
      (∀ y ∈ lookupE E c, S y) →
      ∀ x ∈ dfs E fuel c vis, x ∈ vis ∨ S x := by
  intro fuel
  induction fuel with
  | zero => intro c vis _ x hx; exact Or.inl hx
  | succ f ih =>
    intro c vis hnb x hx
    suffices h : ∀ (l : List String), (∀ y ∈ l, S y) →
        ∀ acc, (∀ z ∈ acc, z ∈ vis ∨ S z) →
        ∀ x ∈ l.foldl (fun v nb => if nb ∈ v then v else dfs E f nb (nb :: v)) acc,
          x ∈ vis ∨ S x by
      exact h _ hnb vis (fun z hz => Or.inl hz) x hx
    intro l
    induction l with
    | nil => intro _ acc hacc x hx; exact hacc x hx
    | cons nb rest ihl =>
      intro hl acc hacc x hx
      rw [List.foldl_cons] at hx
      refine ihl (fun y hy => hl y (List.mem_cons_of_mem _ hy)) _ ?_ x hx
      intro z hz
      simp only at hz
      by_cases hmem : nb ∈ acc
      · rw [if_pos hmem] at hz
        exact hacc z hz
      · rw [if_neg hmem] at hz
        have hSnb : S nb := hl nb (List.mem_cons_self _ _)
        rcases ih nb (nb :: acc) (hS nb hSnb) z hz with hzv | hzS
        · rcases List.mem_cons.mp hzv with rfl | hz'
          · exact Or.inr hSnb
          · exact hacc z hz'
        · exact Or.inr hzS

/-- One level of completeness: with positive fuel, every direct neighbour of
`current` ends up in the visited set. -/
theorem mem_dfs_of_mem_adj (E : EdgeMap) (f : Nat) (c : String) (vis : List String) :
    ∀ nb ∈ lookupE E c, nb ∈ dfs E (f + 1) c vis := by
  have hstep : ∀ (acc : List String) (a : String),
      acc ⊆ (fun v nb => if nb ∈ v then v else dfs E f nb (nb :: v)) acc a := by
    intro acc a
    show acc ⊆ if a ∈ acc then acc else dfs E f a (a :: acc)
    by_cases h : a ∈ acc
    · rw [if_pos h]
      exact List.Subset.refl acc
    · rw [if_neg h]
      exact (List.subset_cons_self a acc).trans (subset_dfs E f a (a :: acc))
  suffices h : ∀ (l : List String) (acc : List String), ∀ nb ∈ l,
      nb ∈ l.foldl (fun v nb => if nb ∈ v then v else dfs E f nb (nb :: v)) acc by
    exact fun nb hnb => h _ vis nb hnb
  intro l
  induction l with
  | nil => intro acc nb hnb; simp at hnb
  | cons a rest ihl =>
    intro acc nb hnb
    rw [List.foldl_cons]
    rcases List.mem_cons.mp hnb with rfl | hnb'
    · have : nb ∈ (fun v nb => if nb ∈ v then v else dfs E f nb (nb :: v)) acc nb := by
        show nb ∈ if nb ∈ acc then acc else dfs E f nb (nb :: acc)
        by_cases h : nb ∈ acc
        · rw [if_pos h]; exact h
        · rw [if_neg h]
          exact subset_dfs E f nb (nb :: acc) (List.mem_cons_self _ _)
      exact foldl_subset_of_step _ hstep rest _ this
    · exact ihl _ nb hnb'

/-- On a transitively closed edge map, one `dfs` run from a key computes
exactly its direct successor set. -/
theorem dfs_eq_adj_of_trans (E : EdgeMap)
    (htr : ∀ u v w, v ∈ lookupE E u → w ∈ lookupE E v → w ∈ lookupE E u)
    (u : String) (f : Nat) :
    ∀ x, x ∈ dfs E (f + 1) u [] ↔ x ∈ lookupE E u := by
  intro x
  constructor
  · intro hx
    rcases dfs_subset_of_closed E (fun y => y ∈ lookupE E u)
        (fun w hw y hy => htr u w y hw hy) (f + 1) u []
        (fun y hy => hy) x hx with h | h
    · simp at h
    · exact h
  · intro hx
    exact mem_dfs_of_mem_adj E f u [] x hx

theorem lookupE_compute_reachability (E : EdgeMap) (u : String) :
    lookupE (compute_reachability E) u =
      if u ∈ keysA E then dfs E ((keysA E).length + 1) u [] else [] := by
  unfold compute_reachability lookupE
  rw [lookupA_map_self]
  by_cases h : u ∈ keysA E <;> simp [h]

/-- Unconditional membership characterisation of the reduced edge set. -/
theorem mem_reduce_iff (E : EdgeMap) (u v : String) :
    v ∈ lookupE (reduce_transitive_edges E) u ↔
      u ∈ keysA E ∧ v ∈ lookupE E u ∧
        ¬∃ w ∈ lookupE E u, w ≠ v ∧ v ∈ lookupE (compute_reachability E) w := by
  unfold reduce_transitive_edges
  rw [show lookupE ((keysA E).map (fun u =>
      (u, (lookupE E u).filter (fun v =>
        !((lookupE E u).any (fun w =>
          decide (w ≠ v) && decide (v ∈ lookupE (compute_reachability E) w))))))) u =
      ((lookupA ((keysA E).map (fun u =>
        (u, (lookupE E u).filter (fun v =>
          !((lookupE E u).any (fun w =>
            decide (w ≠ v) && decide (v ∈ lookupE (compute_reachability E) w))))))) u).getD []) from rfl]
  rw [lookupA_map_self]
  by_cases h : u ∈ keysA E
  · rw [if_pos h]
    simp only [Option.getD_some, List.mem_filter, Bool.not_eq_true', List.any_eq_false,
      Bool.and_eq_true, decide_eq_true_eq]
    constructor
    · rintro ⟨hv, hno⟩
      refine ⟨h, hv, ?_⟩
      rintro ⟨w, hw, hwv, hreach⟩
      exact (hno w hw) ⟨hwv, hreach⟩
    · rintro ⟨-, hv, hno⟩
      exact ⟨hv, fun w hw hc => hno ⟨w, hw, hc.1, hc.2⟩⟩
  · rw [if_neg h]
    simp only [Option.getD_none, List.not_mem_nil, false_iff]
    rintro ⟨hk, _, _⟩
    exact h hk

theorem lookupA_mem {α : Type} {m : AList α} {k : String} {v : α}
    (h : lookupA m k = some v) : (k, v) ∈ m := by
  induction m with
  | nil => simp [lookupA] at h
  | cons kv rest ih =>
    rw [lookupA_cons] at h
    by_cases hk : kv.1 = k
    · rw [if_pos hk] at h
      obtain ⟨a, b⟩ := kv
      simp only at hk h
      subst hk
      rw [Option.some.injEq] at h
      subst h
      exact List.mem_cons_self _ _
    · rw [if_neg hk] at h
      exact List.mem_cons_of_mem _ (ih h)

theorem wf_of_entries {E : EdgeMap} (h : ∀ kv ∈ E, ∀ v ∈ kv.2, v ∈ keysA E) :
    ∀ u v, v ∈ lookupE E u → v ∈ keysA E := by
  intro u v hv
  unfold lookupE at hv
  rcases hl : lookupA E u with _ | l
  · rw [hl] at hv; simp at hv
  · rw [hl] at hv
    exact h (u, l) (lookupA_mem hl) v hv

theorem trans_of_bounded {E : EdgeMap}
    (h : ∀ u ∈ keysA E, ∀ v ∈ lookupE E u, ∀ w ∈ lookupE E v, w ∈ lookupE E u) :
    ∀ u v w, v ∈ lookupE E u → w ∈ lookupE E v → w ∈ lookupE E u :=
  fun u v w hv hw => h u (mem_lookupE_key hv) v hv w hw

theorem irrefl_of_bounded {E : EdgeMap} (h : ∀ u ∈ keysA E, u ∉ lookupE E u) :
    ∀ u, u ∉ lookupE E u :=
  fun u hu => h u (mem_lookupE_key hu) hu

/-- On a transitively closed map, the reduced set keeps exactly the cover
edges: `u → v` with no other direct successor `w` of `u` reaching `v`. -/
theorem mem_reduce_iff_cover (E : EdgeMap)
    (hwf : ∀ u v, v ∈ lookupE E u → v ∈ keysA E)
    (htr : ∀ u v w, v ∈ lookupE E u → w ∈ lookupE E v → w ∈ lookupE E u)
    (u v : String) :
    v ∈ lookupE (reduce_transitive_edges E) u ↔
      v ∈ lookupE E u ∧ ¬∃ w, w ∈ lookupE E u ∧ w ≠ v ∧ v ∈ lookupE E w := by
  rw [mem_reduce_iff]
  constructor
  · rintro ⟨hk, hv, hno⟩
    refine ⟨hv, ?_⟩
    rintro ⟨w, hw, hwv, hvw⟩
    refine hno ⟨w, hw, hwv, ?_⟩
    rw [lookupE_compute_reachability, if_pos (hwf u w hw)]
    exact (dfs_eq_adj_of_trans E htr w ((keysA E).length) v).mpr hvw
  · rintro ⟨hv, hno⟩
    refine ⟨mem_lookupE_key hv, hv, ?_⟩
    rintro ⟨w, hw, hwv, hr⟩
    rw [lookupE_compute_reachability, if_pos (hwf u w hw)] at hr
    exact hno ⟨w, hw, hwv, (dfs_eq_adj_of_trans E htr w ((keysA E).length) v).mp hr⟩

/-- Reduced edges are edges of the input, and paths over them stay inside
the (transitively closed) input relation. -/
theorem transGen_reduce_imp_edge (E : EdgeMap)
    (htr : ∀ u v w, v ∈ lookupE E u → w ∈ lookupE E v → w ∈ lookupE E u)
    {u v : String}
    (h : Relation.TransGen (fun a b => b ∈ lookupE (reduce_transitive_edges E) a) u v) :
    v ∈ lookupE E u := by
  induction h with
  | single h1 => exact ((mem_reduce_iff E _ _).mp h1).2.1
  | tail _ h2 ih => exact htr _ _ _ ih ((mem_reduce_iff E _ _).mp h2).2.1

theorem transGen_head_cases {α : Type} {r : α → α → Prop} {a b : α}
    (h : Relation.TransGen r a b) : r a b ∨ ∃ c, r a c ∧ Relation.TransGen r c b := by
  induction h with
  | single h1 => exact Or.inl h1
  | tail h1 h2 ih =>
    rcases ih with h | ⟨c, hc, ht⟩
    · exact Or.inr ⟨_, h, Relation.TransGen.single h2⟩
    · exact Or.inr ⟨c, hc, ht.tail h2⟩

/-- Completeness of the reduction: on a finite strict order every related
pair is joined by a chain of cover (reduced) edges. -/
theorem transGen_reduce_of_edge (E : EdgeMap)
    (hwf : ∀ u v, v ∈ lookupE E u → v ∈ keysA E)
    (htr : ∀ u v w, v ∈ lookupE E u → w ∈ lookupE E v → w ∈ lookupE E u)
    (hirr : ∀ u, u ∉ lookupE E u) :
    ∀ u v, v ∈ lookupE E u →
      Relation.TransGen (fun a b => b ∈ lookupE (reduce_transitive_edges E) a) u v := by
  have main : ∀ (n : Nat) (u v : String),
      ((keysA E).toFinset.filter (fun x => x ∈ lookupE E u ∧ v ∈ lookupE E x)).card = n →
      v ∈ lookupE E u →
      Relation.TransGen (fun a b => b ∈ lookupE (reduce_transitive_edges E) a) u v := by
    intro n
    induction n using Nat.strong_induction_on with
    | _ n ih =>
      intro u v hcard hedge
      by_cases hcov : ∃ w, w ∈ lookupE E u ∧ w ≠ v ∧ v ∈ lookupE E w
      · rcases hcov with ⟨w, hw, hwv, hvw⟩
        have hwk : w ∈ keysA E := hwf u w hw
        have hwbig : w ∈ (keysA E).toFinset.filter
            (fun x => x ∈ lookupE E u ∧ v ∈ lookupE E x) := by
          rw [Finset.mem_filter, List.mem_toFinset]
          exact ⟨hwk, hw, hvw⟩
        have hsub1 : (keysA E).toFinset.filter
            (fun x => x ∈ lookupE E w ∧ v ∈ lookupE E x) ⊆
            (keysA E).toFinset.filter (fun x => x ∈ lookupE E u ∧ v ∈ lookupE E x) := by
          intro x hx
          rw [Finset.mem_filter] at hx ⊢
          exact ⟨hx.1, htr u w x hw hx.2.1, hx.2.2⟩
        have hlt1 : ((keysA E).toFinset.filter
            (fun x => x ∈ lookupE E w ∧ v ∈ lookupE E x)).card < n := by
          rw [← hcard]
          refine Finset.card_lt_card ((Finset.ssubset_iff_of_subset hsub1).mpr ⟨w, hwbig, ?_⟩)
          rw [Finset.mem_filter]
          rintro ⟨-, hww, -⟩
          exact hirr w hww
        have hsub2 : (keysA E).toFinset.filter
            (fun x => x ∈ lookupE E u ∧ w ∈ lookupE E x) ⊆
            (keysA E).toFinset.filter (fun x => x ∈ lookupE E u ∧ v ∈ lookupE E x) := by
          intro x hx
          rw [Finset.mem_filter] at hx ⊢
          exact ⟨hx.1, hx.2.1, htr x w v hx.2.2 hvw⟩
        have hlt2 : ((keysA E).toFinset.filter
            (fun x => x ∈ lookupE E u ∧ w ∈ lookupE E x)).card < n := by
          rw [← hcard]
          refine Finset.card_lt_card ((Finset.ssubset_iff_of_subset hsub2).mpr ⟨w, hwbig, ?_⟩)
          rw [Finset.mem_filter]
          rintro ⟨-, -, hww⟩
          exact hirr w hww
        exact Relation.TransGen.trans (ih _ hlt2 u w rfl hw) (ih _ hlt1 w v rfl hvw)
      · exact Relation.TransGen.single ((mem_reduce_iff_cover E hwf htr u v).mpr ⟨hedge, hcov⟩)
  exact fun u v h => main _ u v rfl h

/-! ## Termination of the visited-set DFS (fuel stability) -/

/-- `compute_reachability` with an explicit recursion-depth budget. -/
def computeReachabilityFuel (f : Nat) (E : EdgeMap) : EdgeMap :=
  (keysA E).map (fun u => (u, dfs E f u []))

theorem compute_reachability_eq_fuel (E : EdgeMap) :
    compute_reachability E = computeReachabilityFuel ((keysA E).length + 1) E := rfl

/-- Number of keys not yet in the visited set. -/
def unvis (E : EdgeMap) (vis : List String) : Nat :=
  (keysA E).countP (fun k => decide (k ∉ vis))

theorem countP_lt_of_witness {α : Type} (p q : α → Bool) :
    ∀ (l : List α), (∀ a ∈ l, p a = true → q a = true) →
      ∀ x ∈ l, q x = true → p x = false → l.countP p < l.countP q := by
  intro l
  induction l with
  | nil => intro _ x hx; simp at hx
  | cons a rest ihl =>
    intro himp x hx hqx hpx
    rw [List.countP_cons, List.countP_cons]
    rcases List.mem_cons.mp hx with rfl | hx'
    · have h1 : rest.countP p ≤ rest.countP q :=
        List.countP_mono_left (fun b hb hpb => himp b (List.mem_cons_of_mem _ hb) hpb)
      rw [hpx, hqx]
      rw [if_neg Bool.false_ne_true, if_pos rfl]
      omega
    · have h1 := ihl (fun b hb hpb => himp b (List.mem_cons_of_mem _ hb) hpb) x hx' hqx hpx
      have h2 : (if p a then 1 else 0) ≤ (if q a then 1 else 0) := by
        by_cases hpa : p a = true
        · rw [if_pos hpa, if_pos (himp a (List.mem_cons_self _ _) hpa)]
        · rw [if_neg hpa]
          exact Nat.zero_le _
      omega

theorem unvis_mono (E : EdgeMap) {vis vis' : List String} (hsub : vis ⊆ vis') :
    unvis E vis' ≤ unvis E vis :=
  List.countP_mono_left (fun a _ h =>
    decide_eq_true (fun hmem => (of_decide_eq_true h) (hsub hmem)))

theorem unvis_strict (E : EdgeMap) {vis : List String} {nb : String}
    (hk : nb ∈ keysA E) (hnb : nb ∉ vis) :
    unvis E (nb :: vis) < unvis E vis := by
  refine countP_lt_of_witness _ _ (keysA E) ?_ nb hk (decide_eq_true hnb) ?_
  · intro a _ h
    exact decide_eq_true (fun hmem =>
      (of_decide_eq_true h) (List.mem_cons_of_mem _ hmem))
  · exact decide_eq_false (fun hcon => hcon (List.mem_cons_self _ _))

theorem dfs_step_subset (E : EdgeMap) (f : Nat) (acc : List String) (a : String) :
    acc ⊆ (if a ∈ acc then acc else dfs E f a (a :: acc)) := by
  by_cases h : a ∈ acc
  · rw [if_pos h]
    exact List.Subset.refl acc
  · rw [if_neg h]
    exact (List.subset_cons_self a acc).trans (subset_dfs E f a (a :: acc))

/-- With a well-formed edge map (all targets are keys) the result of `dfs`
does not depend on the fuel once it exceeds the number of unvisited keys:
the recursion terminates within that depth, cycles included. -/
theorem dfs_fuel_stable_aux (E : EdgeMap)
    (hwf : ∀ u v, v ∈ lookupE E u → v ∈ keysA E) :
    ∀ (n : Nat) (c : String) (vis : List String) (f1 f2 : Nat),
      unvis E vis ≤ n → n < f1 → n < f2 →
      dfs E f1 c vis = dfs E f2 c vis := by
  intro n
  induction n using Nat.strong_induction_on with
  | _ n ih =>
    intro c vis f1 f2 hn h1 h2
    obtain ⟨a, rfl⟩ : ∃ a, f1 = a + 1 := ⟨f1 - 1, by omega⟩
    obtain ⟨b, rfl⟩ : ∃ b, f2 = b + 1 := ⟨f2 - 1, by omega⟩
    show (lookupE E c).foldl (fun v nb => if nb ∈ v then v else dfs E a nb (nb :: v)) vis =
      (lookupE E c).foldl (fun v nb => if nb ∈ v then v else dfs E b nb (nb :: v)) vis
    have hkeys : ∀ y ∈ lookupE E c, y ∈ keysA E := fun y hy => hwf c y hy
    have main : ∀ (l : List String), (∀ y ∈ l, y ∈ keysA E) →
        ∀ (acc : List String), unvis E acc ≤ n →
        l.foldl (fun v nb => if nb ∈ v then v else dfs E a nb (nb :: v)) acc =
          l.foldl (fun v nb => if nb ∈ v then v else dfs E b nb (nb :: v)) acc := by
      intro l
      induction l with
      | nil => intro _ acc _; rfl
      | cons nb rest ihl =>
        intro hl acc hacc
        rw [List.foldl_cons, List.foldl_cons]
        have hstep : (if nb ∈ acc then acc else dfs E a nb (nb :: acc)) =
            (if nb ∈ acc then acc else dfs E b nb (nb :: acc)) := by
          by_cases hmem : nb ∈ acc
          · rw [if_pos hmem, if_pos hmem]
          · rw [if_neg hmem, if_neg hmem]
            have hlt : unvis E (nb :: acc) < unvis E acc :=
              unvis_strict E (hl nb (List.mem_cons_self _ _)) hmem
            exact ih (unvis E (nb :: acc)) (by omega) nb (nb :: acc) a b
              (Nat.le_refl _) (by omega) (by omega)
        show List.foldl (fun v nb => if nb ∈ v then v else dfs E a nb (nb :: v))
            (if nb ∈ acc then acc else dfs E a nb (nb :: acc)) rest =
          List.foldl (fun v nb => if nb ∈ v then v else dfs E b nb (nb :: v))
            (if nb ∈ acc then acc else dfs E b nb (nb :: acc)) rest
        rw [hstep]
        exact ihl (fun y hy => hl y (List.mem_cons_of_mem _ hy)) _
          (le_trans (unvis_mono E (dfs_step_subset E b acc nb)) hacc)
    exact main _ hkeys vis hn

/-- The visited set never acquires duplicates: a node is added (and hence
descended into) at most once per traversal. -/
theorem dfs_nodup (E : EdgeMap) :
    ∀ (fuel : Nat) (c : String) (vis : List String), vis.Nodup → (dfs E fuel c vis).Nodup := by
  intro fuel
  induction fuel with
  | zero => intro c vis h; exact h
  | succ f ih =>
    intro c vis hvis
    show ((lookupE E c).foldl (fun v nb => if nb ∈ v then v else dfs E f nb (nb :: v)) vis).Nodup
    have main : ∀ (l : List String) (acc : List String), acc.Nodup →
        (l.foldl (fun v nb => if nb ∈ v then v else dfs E f nb (nb :: v)) acc).Nodup := by
      intro l
      induction l with
      | nil => intro acc h; exact h
      | cons nb rest ihl =>
        intro acc hacc
        rw [List.foldl_cons]
        refine ihl _ ?_
        show (if nb ∈ acc then acc else dfs E f nb (nb :: acc)).Nodup
        by_cases hmem : nb ∈ acc
        · rw [if_pos hmem]; exact hacc
        · rw [if_neg hmem]
          exact ih nb (nb :: acc) (List.nodup_cons.mpr ⟨hmem, hacc⟩)
    exact main _ vis hvis

/-- Fuel invariance of the whole reachability pass, from the canonical budget
`|keys| + 1` upward. -/
theorem computeReachabilityFuel_stable (E : EdgeMap)
    (hwf : ∀ u v, v ∈ lookupE E u → v ∈ keysA E) (f : Nat)
    (hf : (keysA E).length + 1 ≤ f) :
    computeReachabilityFuel f E = compute_reachability E := by
  rw [compute_reachability_eq_fuel]
  unfold computeReachabilityFuel
  refine List.map_congr_left ?_
  intro u _
  have hnil : unvis E [] = (keysA E).length := by
    unfold unvis
    induction keysA E with
    | nil => rfl
    | cons a rest ihk => rw [List.countP_cons, List.length_cons, ihk]; simp
  have := dfs_fuel_stable_aux E hwf ((keysA E).length) u [] f ((keysA E).length + 1)
    (le_of_eq hnil) (by omega) (by omega)
  rw [this]

/-! ## Vector clocks (`src/src/vector_clock/compute.py`) -/

/-- Input model `{branch: {event: [parents]}}` in insertion order. -/
abbrev Model := List (String × List (String × List String))

/-- All `(branch, event, parents)` triples in branch-major iteration order. -/
def entriesM (data : Model) : List (String × String × List String) :=
  data.flatMap (fun b => b.2.map (fun ep => (b.1, ep.1, ep.2)))

def eventsM (data : Model) : List String := (entriesM data).map (fun t => t.2.1)

/-- `get_parents(data, event)`: parent list from the first branch containing
the event, `[]` when absent. -/
def get_parents (data : Model) (e : String) : List String :=
  match (entriesM data).find? (fun t => t.2.1 == e) with
  | some t => t.2.2
  | none => []

/-- `next(branch for branch in data if event in data[branch])` as an option. -/
def findBranchOf (data : Model) (e : String) : Option String :=
  ((entriesM data).find? (fun t => t.2.1 == e)).map (·.1)

/-- `find_root(data)`: first event (branch-major order) with no parents. -/
def find_root (data : Model) : Option (String × String) :=
  ((entriesM data).find? (fun t => t.2.2.isEmpty)).map (fun t => (t.2.1, t.1))

/-- `branch_indices[b]`: position of branch `b` in the model's key order. -/
def branchIdx (data : Model) (b : String) : Nat :=
  (data.map (·.1)).findIdx (fun x => x == b)

/-- `graph[parent].append(event)` on a defaultdict of lists: append to the
(unique) entry for `parent`, creating it at the end when absent. -/
def pushChild : EdgeMap → String → String → EdgeMap
  | [], p, c => [(p, [c])]
  | kv :: rest, p, c =>
    if kv.1 = p then (kv.1, kv.2 ++ [c]) :: rest else kv :: pushChild rest p c

/-- `build_event_graph(data)`: ensure every event is a key, and append each
event to each of its parents' child lists. -/
def build_event_graph (data : Model) : EdgeMap :=
  data.foldl (fun g b =>
    b.2.foldl (fun g ep =>
      ep.2.foldl (fun g par => pushChild g par ep.1) (touchKey g ep.1)) g) []

def bumpI (f : String → Int) (v : String) : String → Int :=
  fun x => if x = v then f x + 1 else f x

def decI (f : String → Int) (v : String) : String → Int :=
  fun x => if x = v then f x - 1 else f x

/-- `in_degree` after the counting loops of `kahns_algorithm`. -/
def initIndeg (g : EdgeMap) : String → Int :=
  g.foldl (fun f kv => kv.2.foldl (fun f v => bumpI f v) f) (fun _ => 0)

/-- `deque([u for u in graph if in_degree[u] == 0])`. -/
def initQueue (g : EdgeMap) : List String :=
  (keysA g).filter (fun u => decide (initIndeg g u = 0))

/-- The while-loop of Kahn's algorithm: pop from the queue front, append to
the order, decrement children, enqueue children that reach zero.  The loop
runs at most once per node (each node enters the queue at most once), so the
`|keys| + 1` budget used by `kahnOrder` is shown never to run out. -/
def kahnLoop (g : EdgeMap) : Nat → (String → Int) → List String → List String → List String
  | 0, _, _, order => order
  | fuel + 1, indeg, queue, order =>
    match queue with
    | [] => order
    | u :: rest =>
      let st := (lookupE g u).foldl
        (fun st v =>
          let f := decI st.1 v
          if f v = 0 then (f, st.2 ++ [v]) else (f, st.2)) (indeg, rest)
      kahnLoop g fuel st.1 st.2 (order ++ [u])

def kahnOrder (g : EdgeMap) : List String :=
  kahnLoop g ((keysA g).length + 1) (initIndeg g) (initQueue g) []

/-- `kahns_algorithm(graph)`, with the final cycle check
`len(topological_order) != len(graph)` raising `ValueError`. -/
def kahns_algorithm (g : EdgeMap) : Except Unit (List String) :=
  if (kahnOrder g).length ≠ (keysA g).length then Except.error ()
  else Except.ok (kahnOrder g)

/-- Failure modes of `compute_vector_clock`: the cycle `ValueError`, the
no-root `ValueError`, a `KeyError` on `vector_clocks[parent]`, and the
`StopIteration` from the branch lookup. -/
inductive CVCError where
  | cyclicHistory
  | noRoot
  | missingParentClock
  | noBranch
deriving DecidableEq

/-- The parent-clock fold: `clock = [max(c, pc) for c, pc in zip(clock, parent_clock)]`
over all parents, failing like `vector_clocks[parent]` on a missing parent. -/
def foldParents (m : AList (List Int)) : List String → List Int → Except CVCError (List Int)
  | [], c => Except.ok c
  | p :: ps, c =>
    match lookupA m p with
    | none => Except.error CVCError.missingParentClock
    | some pc => foldParents m ps (List.zipWith max c pc)

/-- `clock[i] += 1`. -/
def incAt (l : List Int) (i : Nat) : List Int := l.set i (l.getD i 0 + 1)

/-- The `for event in topo_order[1:]` loop of `compute_vector_clock`. -/
def assignClocks (data : Model) (n : Nat) :
    List String → AList (List Int) → Except CVCError (AList (List Int))
  | [], m => Except.ok m
  | e :: rest, m =>
    match foldParents m (get_parents data e) (List.replicate n 0) with
    | Except.error err => Except.error err
    | Except.ok clock =>
      match findBranchOf data e with
      | none => Except.error CVCError.noBranch
      | some b =>
        assignClocks data n rest (assocSet m e (incAt clock (branchIdx data b)))

/-- `compute_vector_clock(data)`. -/
def compute_vector_clock (data : Model) : Except CVCError (AList (List Int)) :=
  let n := data.length
  let graph := build_event_graph data
  match kahns_algorithm graph with
  | Except.error _ => Except.error CVCError.cyclicHistory
  | Except.ok topo =>
    match find_root data with
    | none => Except.error CVCError.noRoot
    | some rt =>
      assignClocks data n (topo.drop 1)
        [(rt.1, (List.replicate n 0).set (branchIdx data rt.2) 1)]

/-! ## Kahn's algorithm: in-degree accounting -/

/-- Multiplicity of `v` among the direct children of `u`. -/
def cntIn (g : EdgeMap) (u v : String) : Nat := (lookupE g u).count v

/-- In-edges of `v` consumed by the popped nodes `done`. -/
def popN (g : EdgeMap) (done : List String) (v : String) : Nat :=
  (done.map (fun u => cntIn g u v)).sum

/-- Total in-degree of `v` (over all keys). -/
def totN (g : EdgeMap) (v : String) : Nat :=
  ((keysA g).map (fun u => cntIn g u v)).sum

theorem foldl_bump_eq (l : List String) :
    ∀ (f : String → Int) (v : String),
      (l.foldl (fun f x => bumpI f x) f) v = f v + (l.count v : Int) := by
  induction l with
  | nil => intro f v; simp
  | cons a rest ih =>
    intro f v
    rw [List.foldl_cons, ih, List.count_cons]
    unfold bumpI
    by_cases h : v = a
    · subst h
      simp only [if_pos rfl]
      push_cast
      simp
      omega
    · have h' : (a == v) = false := by
        rw [beq_eq_false_iff_ne]
        exact fun hh => h hh.symm
      simp only [if_neg h, h']
      push_cast
      simp

theorem initIndeg_eq_entries (g : EdgeMap) (v : String) :
    initIndeg g v = ((g.map (fun kv => (kv.2.count v : Int))).sum) := by
  unfold initIndeg
  have main : ∀ (l : List (String × List String)) (f : String → Int),
      (l.foldl (fun f kv => kv.2.foldl (fun f v => bumpI f v) f) f) v =
        f v + ((l.map (fun kv => (kv.2.count v : Int))).sum) := by
    intro l
    induction l with
    | nil => intro f; simp
    | cons kv rest ihl =>
      intro f
      rw [List.foldl_cons, ihl, List.map_cons, List.sum_cons]
      rw [show (kv.2.foldl (fun f v => bumpI f v) f) v = f v + (kv.2.count v : Int) from
        foldl_bump_eq kv.2 f v]
      ring
  rw [main]
  simp

theorem entries_sum_eq_keys_sum (g : EdgeMap) (hnd : (keysA g).Nodup)
    (h : String → List String → Int) :
    (g.map (fun kv => h kv.1 kv.2)).sum =
      ((keysA g).map (fun u => h u (lookupE g u))).sum := by
  induction g with
  | nil => rfl
  | cons kv rest ih =>
    have hnd' : (keysA rest).Nodup := (List.nodup_cons.mp hnd).2
    have hfresh : kv.1 ∉ keysA rest := (List.nodup_cons.mp hnd).1
    simp only [keysA, List.map_cons, List.sum_cons] at *
    rw [ih hnd']
    congr 1
    · unfold lookupE
      rw [lookupA_cons, if_pos rfl]
      rfl
    · refine congrArg List.sum (List.map_congr_left ?_)
      intro u hu
      have hne : kv.1 ≠ u := fun hh => hfresh (hh ▸ hu)
      unfold lookupE
      rw [lookupA_cons, if_neg hne]

theorem initIndeg_eq_totN (g : EdgeMap) (hnd : (keysA g).Nodup) (v : String) :
    initIndeg g v = (totN g v : Int) := by
  rw [initIndeg_eq_entries, entries_sum_eq_keys_sum g hnd (fun _ l => (l.count v : Int))]
  unfold totN cntIn
  push_cast
  rw [List.map_map]
  rfl

theorem sum_le_of_subset_nodup {l₁ l₂ : List String} (h₁ : l₁.Nodup) (h₂ : l₂.Nodup)
    (hsub : l₁ ⊆ l₂) (c : String → Nat) : (l₁.map c).sum ≤ (l₂.map c).sum := by
  rw [← List.sum_toFinset c h₁, ← List.sum_toFinset c h₂]
  exact Finset.sum_le_sum_of_subset
    (fun x hx => List.mem_toFinset.mpr (hsub (List.mem_toFinset.mp hx)))

theorem sum_lt_of_missing {l₁ l₂ : List String} (h₁ : l₁.Nodup) (h₂ : l₂.Nodup)
    (hsub : l₁ ⊆ l₂) (c : String → Nat) (x : String) (hx₂ : x ∈ l₂) (hx₁ : x ∉ l₁)
    (hc : 0 < c x) : (l₁.map c).sum < (l₂.map c).sum := by
  rw [← List.sum_toFinset c h₁, ← List.sum_toFinset c h₂]
  refine Finset.sum_lt_sum_of_subset
    (fun y hy => List.mem_toFinset.mpr (hsub (List.mem_toFinset.mp hy)))
    (List.mem_toFinset.mpr hx₂) (fun hcon => hx₁ (List.mem_toFinset.mp hcon)) hc
    (fun j _ _ => Nat.zero_le _)

theorem sum_eq_of_subset_zero {l₁ l₂ : List String} (h₁ : l₁.Nodup) (h₂ : l₂.Nodup)
    (hsub : l₁ ⊆ l₂) (c : String → Nat) (hz : ∀ x ∈ l₂, x ∉ l₁ → c x = 0) :
    (l₁.map c).sum = (l₂.map c).sum := by
  rw [← List.sum_toFinset c h₁, ← List.sum_toFinset c h₂]
  exact Finset.sum_subset
    (fun x hx => List.mem_toFinset.mpr (hsub (List.mem_toFinset.mp hx)))
    (fun x hx hnx => hz x (List.mem_toFinset.mp hx) (fun hcon => hnx (List.mem_toFinset.mpr hcon)))

theorem popN_append (g : EdgeMap) (l₁ l₂ : List String) (v : String) :
    popN g (l₁ ++ l₂) v = popN g l₁ v + popN g l₂ v := by
  unfold popN
  rw [List.map_append, List.sum_append]

theorem popN_le_totN (g : EdgeMap) (hnd : (keysA g).Nodup) {done : List String}
    (h₁ : done.Nodup) (hsub : ∀ x ∈ done, x ∈ keysA g) (v : String) :
    popN g done v ≤ totN g v :=
  sum_le_of_subset_nodup h₁ hnd (fun x hx => hsub x hx) _

/-- Loop invariant of Kahn's algorithm over the pending queue and the popped
order: no duplicates, everything is a key, zero in-degree nodes are enqueued
or popped, enqueued/popped nodes have non-positive residual in-degree, every
pending node has all in-neighbours already popped, and the popped order lists
each node after all its in-neighbours. -/
def KState (g : EdgeMap) (indeg : String → Int) (pend done : List String) : Prop :=
  (pend ++ done).Nodup ∧
  (∀ v ∈ pend ++ done, v ∈ keysA g) ∧
  (∀ v ∈ keysA g, indeg v = 0 → v ∈ pend ++ done) ∧
  (∀ v ∈ pend ++ done, indeg v ≤ 0) ∧
  (∀ v ∈ pend, ∀ u, v ∈ lookupE g u → u ∈ done) ∧
  (∀ k v, done.get? k = some v → ∀ u, v ∈ lookupE g u → ∃ j, j < k ∧ done.get? j = some u)

theorem count_append_single (d : List String) (v x : String) :
    ((d ++ [v]).count x : Int) = (d.count x : Int) + (if x = v then 1 else 0) := by
  rw [List.count_append]
  by_cases h : x = v
  · subst h
    simp
  · have hz : ([v].count x) = 0 :=
      List.count_eq_zero.mpr (fun hmem => h (List.mem_singleton.mp hmem))
    rw [hz, if_neg h]
    simp

theorem popN_append_single (g : EdgeMap) (order : List String) (u v : String) :
    popN g (order ++ [u]) v = popN g order v + cntIn g u v := by
  rw [popN_append]
  unfold popN
  simp

theorem decI_eval (f : String → Int) (v x : String) :
    decI f v x = f x - (if x = v then 1 else 0) := by
  unfold decI
  by_cases h : x = v
  · rw [if_pos h, if_pos h]
  · rw [if_neg h, if_neg h]
    omega

/-- Specification of the child-processing fold inside one Kahn iteration:
it finishes the in-degree accounting for the popped node `u` and preserves
the loop invariant. -/
theorem kahnFold_spec (g : EdgeMap) (hknd : (keysA g).Nodup)
    (hval : ∀ a b, b ∈ lookupE g a → b ∈ keysA g)
    (u : String) (hu : u ∈ keysA g) (order : List String) :
    ∀ (t d : List String) (f : String → Int) (q : List String),
      lookupE g u = d ++ t →
      (∀ v, f v = (totN g v : Int) - (popN g order v : Int) - (d.count v : Int)) →
      KState g f q (order ++ [u]) →
      (∀ v, (t.foldl (fun st v =>
          let f' := decI st.1 v
          if f' v = 0 then (f', st.2 ++ [v]) else (f', st.2)) (f, q)).1 v =
        (totN g v : Int) - (popN g order v : Int) - ((lookupE g u).count v : Int)) ∧
      KState g
        (t.foldl (fun st v =>
          let f' := decI st.1 v
          if f' v = 0 then (f', st.2 ++ [v]) else (f', st.2)) (f, q)).1
        (t.foldl (fun st v =>
          let f' := decI st.1 v
          if f' v = 0 then (f', st.2 ++ [v]) else (f', st.2)) (f, q)).2
        (order ++ [u]) := by
  intro t
  induction t with
  | nil =>
    intro d f q hl hf hks
    rw [List.append_nil] at hl
    constructor
    · intro v
      rw [List.foldl_nil]
      show f v = _
      rw [hf v, hl]
    · rw [List.foldl_nil]
      exact hks
  | cons v t' iht =>
    intro d f q hl hf hks
    obtain ⟨hnd, hkeys, hzero, hnonpos, hpend, hord⟩ := hks
    have hvl : v ∈ lookupE g u := by
      rw [hl]
      exact List.mem_append.mpr (Or.inr (List.mem_cons_self _ _))
    have hvkey : v ∈ keysA g := hval u v hvl
    have hl' : lookupE g u = (d ++ [v]) ++ t' := by
      rw [hl, List.append_assoc]
      rfl
    have hf' : ∀ x, decI f v x =
        (totN g x : Int) - (popN g order x : Int) - ((d ++ [v]).count x : Int) := by
      intro x
      rw [decI_eval, hf x, count_append_single]
      omega
    simp only [List.foldl_cons]
    by_cases h0 : decI f v v = 0
    · rw [if_pos h0]
      -- `v` reaches in-degree zero: it is fresh and all its in-neighbours
      -- are already popped.
      have hfresh : v ∉ q ++ (order ++ [u]) := by
        intro hmem
        have := hnonpos v hmem
        rw [decI_eval, if_pos rfl] at h0
        omega
      have hinn : ∀ w, v ∈ lookupE g w → w ∈ order ++ [u] := by
        intro w hw
        by_contra hnw
        have hwkey : w ∈ keysA g := mem_lookupE_key hw
        have hdnd : (order ++ [u]).Nodup := by
          have := hnd
          rw [List.nodup_append] at this
          exact this.2.1
        have hdsub : ∀ x ∈ order ++ [u], x ∈ keysA g :=
          fun x hx => hkeys x (List.mem_append.mpr (Or.inr hx))
        have hlt : popN g (order ++ [u]) v < totN g v := by
          unfold popN totN
          refine sum_lt_of_missing hdnd hknd (fun x hx => hdsub x hx) _ w hwkey hnw ?_
          unfold cntIn
          exact List.count_pos_iff_mem.mpr hw
        have heq : (totN g v : Int) = (popN g order v : Int) + ((d ++ [v]).count v : Int) := by
          have := hf' v
          omega
        have hle : ((d ++ [v]).count v : Int) ≤ (cntIn g u v : Int) := by
          have hsubl : (d ++ [v]).Sublist (lookupE g u) := by
            rw [hl']
            exact List.sublist_append_left _ _
          exact_mod_cast hsubl.count_le v
        have := popN_append_single g order u v
        omega
      refine iht (d ++ [v]) (decI f v) (q ++ [v]) hl' hf' ?_
      have hperm : List.Perm ((q ++ [v]) ++ (order ++ [u])) (v :: (q ++ (order ++ [u]))) := by
        rw [List.append_assoc]
        exact List.perm_middle
      refine ⟨?_, ?_, ?_, ?_, ?_, hord⟩
      · exact hperm.nodup_iff.mpr (List.nodup_cons.mpr ⟨hfresh, hnd⟩)
      · intro x hx
        rcases List.mem_append.mp hx with hx | hx
        · rcases List.mem_append.mp hx with hx | hx
          · exact hkeys x (List.mem_append.mpr (Or.inl hx))
          · rw [List.mem_singleton] at hx
            subst hx
            exact hvkey
        · exact hkeys x (List.mem_append.mpr (Or.inr hx))
      · intro x hxk hx0
        by_cases hxv : x = v
        · subst hxv
          exact List.mem_append.mpr (Or.inl (List.mem_append.mpr (Or.inr (List.mem_singleton.mpr rfl))))
        · have : f x = 0 := by
            have := decI_eval f v x
            rw [if_neg hxv] at this
            omega
          have hmem := hzero x hxk this
          rcases List.mem_append.mp hmem with hx | hx
          · exact List.mem_append.mpr (Or.inl (List.mem_append.mpr (Or.inl hx)))
          · exact List.mem_append.mpr (Or.inr hx)
      · intro x hx
        by_cases hxv : x = v
        · subst hxv
          omega
        · have hxm : x ∈ q ++ (order ++ [u]) := by
            rcases List.mem_append.mp hx with hx | hx
            · rcases List.mem_append.mp hx with hx | hx
              · exact List.mem_append.mpr (Or.inl hx)
              · rw [List.mem_singleton] at hx
                exact absurd hx hxv
            · exact List.mem_append.mpr (Or.inr hx)
          have := hnonpos x hxm
          rw [decI_eval, if_neg hxv]
          omega
      · intro x hx w hw
        rcases List.mem_append.mp hx with hx | hx
        · exact hpend x hx w hw
        · rw [List.mem_singleton] at hx
          subst hx
          exact hinn w hw
    · rw [if_neg h0]
      refine iht (d ++ [v]) (decI f v) q hl' hf' ?_
      refine ⟨hnd, hkeys, ?_, ?_, hpend, hord⟩
      · intro x hxk hx0
        by_cases hxv : x = v
        · subst hxv
          exact absurd hx0 h0
        · have : f x = 0 := by
            have := decI_eval f v x
            rw [if_neg hxv] at this
            omega
          exact hzero x hxk this
      · intro x hx
        have := hnonpos x hx
        rw [decI_eval]
        by_cases hxv : x = v
        · rw [if_pos hxv]
          omega
        · rw [if_neg hxv]
          omega

theorem length_le_of_nodup_subset {l₁ l₂ : List String} (h₁ : l₁.Nodup)
    (h₂ : l₂.Nodup) (hs : l₁ ⊆ l₂) : l₁.length ≤ l₂.length := by
  rw [← List.toFinset_card_of_nodup h₁, ← List.toFinset_card_of_nodup h₂]
  exact Finset.card_le_card
    (fun x hx => List.mem_toFinset.mpr (hs (List.mem_toFinset.mp hx)))

/-- Master lemma for the Kahn loop: from any state satisfying the invariant
(with enough fuel for the remaining pops), the produced order has no
duplicates, contains only keys, lists every node after all its in-neighbours,
leaves every unordered key with an unordered in-neighbour, and extends the
already-popped order. -/
theorem kahnLoop_spec (g : EdgeMap) (hknd : (keysA g).Nodup)
    (hval : ∀ a b, b ∈ lookupE g a → b ∈ keysA g) :
    ∀ (fuel : Nat) (indeg : String → Int) (queue order : List String),
      (∀ v, indeg v = (totN g v : Int) - (popN g order v : Int)) →
      KState g indeg queue order →
      (keysA g).length < fuel + order.length →
      (kahnLoop g fuel indeg queue order).Nodup ∧
      (∀ v ∈ kahnLoop g fuel indeg queue order, v ∈ keysA g) ∧
      (∀ k v, (kahnLoop g fuel indeg queue order).get? k = some v →
        ∀ u, v ∈ lookupE g u →
          ∃ j, j < k ∧ (kahnLoop g fuel indeg queue order).get? j = some u) ∧
      (∀ v ∈ keysA g, v ∉ kahnLoop g fuel indeg queue order →
        ∃ u ∈ keysA g, u ∉ kahnLoop g fuel indeg queue order ∧ v ∈ lookupE g u) ∧
      (∃ tail, kahnLoop g fuel indeg queue order = order ++ tail) := by
  intro fuel
  induction fuel with
  | zero =>
    intro indeg queue order hacct hks hfuel
    obtain ⟨hnd, hkeys, _, _, _, _⟩ := hks
    have hsub : ∀ x ∈ order, x ∈ keysA g :=
      fun x hx => hkeys x (List.mem_append.mpr (Or.inr hx))
    have hlen : order.length ≤ (keysA g).length :=
      length_le_of_nodup_subset (List.Nodup.of_append_right hnd) hknd hsub
    omega
  | succ fuel ih =>
    intro indeg queue order hacct hks hfuel
    match hq : queue with
    | [] =>
      subst hq
      obtain ⟨hnd, hkeys, hzero, _, _, hord⟩ := hks
      rw [List.nil_append] at hnd hkeys hzero
      have hred : kahnLoop g (fuel + 1) indeg [] order = order := rfl
      rw [hred]
      refine ⟨hnd, hkeys, hord, ?_, [], (List.append_nil order).symm⟩
      intro v hvk hvno
      by_contra hno
      push_neg at hno
      have hzcnt : ∀ x ∈ keysA g, x ∉ order → cntIn g x v = 0 := by
        intro x hxk hxo
        by_contra hcnt
        have hpos : 0 < cntIn g x v := Nat.pos_of_ne_zero hcnt
        have hmemadj : v ∈ lookupE g x := List.count_pos_iff_mem.mp hpos
        exact (hno x hxk hxo) hmemadj
      have hsum : popN g order v = totN g v := by
        unfold popN totN
        exact sum_eq_of_subset_zero hnd hknd
          (fun x hx => hkeys x hx) _ hzcnt
      have : indeg v = 0 := by
        rw [hacct v, hsum]
        omega
      exact hvno (hzero v hvk this)
    | u :: rest =>
      subst hq
      obtain ⟨hnd, hkeys, hzero, hnonpos, hpend, hord⟩ := hks
      have hu : u ∈ keysA g :=
        hkeys u (List.mem_append.mpr (Or.inl (List.mem_cons_self _ _)))
      have hundup : u ∉ rest ++ order := by
        have : (u :: (rest ++ order)).Nodup := hnd
        exact (List.nodup_cons.mp this).1
      have hndro : (rest ++ order).Nodup := by
        have : (u :: (rest ++ order)).Nodup := hnd
        exact (List.nodup_cons.mp this).2
      -- invariant for the fold, with `done := order ++ [u]`
      have hperm1 : List.Perm (rest ++ (order ++ [u])) (u :: (rest ++ order)) := by
        have h1 : rest ++ (order ++ [u]) = (rest ++ order) ++ u :: [] := by
          rw [List.append_assoc]
        rw [h1]
        have h2 := @List.perm_middle String u (rest ++ order) []
        rw [List.append_nil] at h2
        exact h2
      have hksmid : KState g indeg rest (order ++ [u]) := by
        refine ⟨?_, ?_, ?_, ?_, ?_, ?_⟩
        · exact hperm1.nodup_iff.mpr hnd
        · intro v hv
          refine hkeys v ?_
          have := hperm1.mem_iff.mp hv
          rcases List.mem_cons.mp this with rfl | hv'
          · exact List.mem_append.mpr (Or.inl (List.mem_cons_self _ _))
          · rcases List.mem_append.mp hv' with hv'' | hv''
            · exact List.mem_append.mpr (Or.inl (List.mem_cons_of_mem _ hv''))
            · exact List.mem_append.mpr (Or.inr hv'')
        · intro v hvk hv0
          have := hzero v hvk hv0
          refine hperm1.mem_iff.mpr ?_
          rcases List.mem_append.mp this with hv' | hv'
          · rcases List.mem_cons.mp hv' with rfl | hv''
            · exact List.mem_cons_self _ _
            · exact List.mem_cons_of_mem _ (List.mem_append.mpr (Or.inl hv''))
          · exact List.mem_cons_of_mem _ (List.mem_append.mpr (Or.inr hv'))
        · intro v hv
          refine hnonpos v ?_
          have := hperm1.mem_iff.mp hv
          rcases List.mem_cons.mp this with rfl | hv'
          · exact List.mem_append.mpr (Or.inl (List.mem_cons_self _ _))
          · rcases List.mem_append.mp hv' with hv'' | hv''
            · exact List.mem_append.mpr (Or.inl (List.mem_cons_of_mem _ hv''))
            · exact List.mem_append.mpr (Or.inr hv'')
        · intro v hv w hw
          exact List.mem_append.mpr
            (Or.inl (hpend v (List.mem_cons_of_mem _ hv) w hw))
        · intro k v hkv w hw
          by_cases hklt : k < order.length
          · rw [List.get?_append hklt] at hkv
            obtain ⟨j, hj, hgj⟩ := hord k v hkv w hw
            exact ⟨j, hj, by rw [List.get?_append (lt_trans hj hklt)]; exact hgj⟩
          · have hklen : k ≤ order.length := by
              by_contra hk
              push_neg at hk
              have : (order ++ [u]).get? k = none := by
                rw [List.get?_eq_none]
                simp only [List.length_append, List.length_singleton]
                omega
              rw [this] at hkv
              exact Option.noConfusion hkv
            have hkeq : k = order.length := by omega
            subst hkeq
            rw [List.get?_concat_length] at hkv
            rw [Option.some.injEq] at hkv
            subst hkv
            have hwo : w ∈ order := hpend u (List.mem_cons_self _ _) w hw
            obtain ⟨j, hgj⟩ := List.mem_iff_get?.mp hwo
            have hjlen : j < order.length := by
              rcases List.get?_eq_some.mp hgj with ⟨h, _⟩
              exact h
            exact ⟨j, hjlen, by rw [List.get?_append hjlen]; exact hgj⟩
      have hfmid : ∀ v, indeg v =
          (totN g v : Int) - (popN g order v : Int) - (([] : List String).count v : Int) := by
        intro v
        rw [hacct v]
        simp
      have hfold := kahnFold_spec g hknd hval u hu order (lookupE g u) [] indeg rest
        (by rw [List.nil_append]) hfmid hksmid
      obtain ⟨hacct', hks'⟩ := hfold
      have hshow : kahnLoop g (fuel + 1) indeg (u :: rest) order =
          kahnLoop g fuel
            ((lookupE g u).foldl (fun st v =>
              let f' := decI st.1 v
              if f' v = 0 then (f', st.2 ++ [v]) else (f', st.2)) (indeg, rest)).1
            ((lookupE g u).foldl (fun st v =>
              let f' := decI st.1 v
              if f' v = 0 then (f', st.2 ++ [v]) else (f', st.2)) (indeg, rest)).2
            (order ++ [u]) := rfl
      rw [hshow]
      have hacct'' : ∀ v,
          ((lookupE g u).foldl (fun st v =>
            let f' := decI st.1 v
            if f' v = 0 then (f', st.2 ++ [v]) else (f', st.2)) (indeg, rest)).1 v =
            (totN g v : Int) - (popN g (order ++ [u]) v : Int) := by
        intro v
        rw [hacct' v, popN_append_single]
        push_cast
        unfold cntIn
        omega
      have hfuel' : (keysA g).length < fuel + (order ++ [u]).length := by
        rw [List.length_append, List.length_singleton]
        omega
      obtain ⟨hP1, hP2, hP3, hP4, tail, hP5⟩ := ih _ _ _ hacct'' hks' hfuel'
      exact ⟨hP1, hP2, hP3, hP4, [u] ++ tail, by rw [← List.append_assoc]; exact hP5⟩

theorem le_sum_of_mem_map (l : List String) (c : String → Nat) :
    ∀ u ∈ l, c u ≤ (l.map c).sum := by
  induction l with
  | nil => intro u hu; simp at hu
  | cons a rest ih =>
    intro u hu
    rw [List.map_cons, List.sum_cons]
    rcases List.mem_cons.mp hu with rfl | hu'
    · omega
    · have := ih u hu'
      omega

/-- The full specification of `kahnOrder` on a graph with distinct keys whose
adjacency targets are all keys. -/
theorem kahnOrder_spec (g : EdgeMap) (hknd : (keysA g).Nodup)
    (hval : ∀ a b, b ∈ lookupE g a → b ∈ keysA g) :
    (kahnOrder g).Nodup ∧
    (∀ v ∈ kahnOrder g, v ∈ keysA g) ∧
    (∀ k v, (kahnOrder g).get? k = some v → ∀ u, v ∈ lookupE g u →
      ∃ j, j < k ∧ (kahnOrder g).get? j = some u) ∧
    (∀ v ∈ keysA g, v ∉ kahnOrder g →
      ∃ u ∈ keysA g, u ∉ kahnOrder g ∧ v ∈ lookupE g u) := by
  have hacct : ∀ v, initIndeg g v = (totN g v : Int) - (popN g [] v : Int) := by
    intro v
    rw [initIndeg_eq_totN g hknd]
    unfold popN
    simp
  have hks : KState g (initIndeg g) (initQueue g) [] := by
    refine ⟨?_, ?_, ?_, ?_, ?_, ?_⟩
    · rw [List.append_nil]
      exact hknd.filter _
    · intro v hv
      rw [List.append_nil] at hv
      exact List.mem_of_mem_filter hv
    · intro v hvk hv0
      rw [List.append_nil]
      unfold initQueue
      exact List.mem_filter.mpr ⟨hvk, decide_eq_true hv0⟩
    · intro v hv
      rw [List.append_nil] at hv
      have := List.mem_filter.mp hv
      have h0 : initIndeg g v = 0 := of_decide_eq_true this.2
      omega
    · intro v hv u hu
      exfalso
      have := List.mem_filter.mp hv
      have h0 : initIndeg g v = 0 := of_decide_eq_true this.2
      rw [initIndeg_eq_totN g hknd] at h0
      have htot : totN g v = 0 := by exact_mod_cast h0
      have hukey : u ∈ keysA g := mem_lookupE_key hu
      have hcnt : 0 < cntIn g u v := List.count_pos_iff_mem.mpr hu
      have hle2 : cntIn g u v ≤ ((keysA g).map (fun u => cntIn g u v)).sum :=
        le_sum_of_mem_map (keysA g) (fun u => cntIn g u v) u hukey
      unfold totN at htot
      omega
    · intro k v hkv
      rw [List.get?_eq_none.mpr (by simp)] at hkv
      exact Option.noConfusion hkv
  have := kahnLoop_spec g hknd hval ((keysA g).length + 1) (initIndeg g)
    (initQueue g) [] hacct hks (by simp)
  exact ⟨this.1, this.2.1, this.2.2.1, this.2.2.2.1⟩

theorem kahnLoop_extends (g : EdgeMap) :
    ∀ (fuel : Nat) (indeg : String → Int) (queue order : List String),
      ∃ tail, kahnLoop g fuel indeg queue order = order ++ tail := by
  intro fuel
  induction fuel with
  | zero => intro indeg queue order; exact ⟨[], (List.append_nil order).symm⟩
  | succ fuel ih =>
    intro indeg queue order
    match queue with
    | [] => exact ⟨[], (List.append_nil order).symm⟩
    | u :: rest =>
      obtain ⟨tail, ht⟩ := ih
        ((lookupE g u).foldl (fun st v =>
          let f' := decI st.1 v
          if f' v = 0 then (f', st.2 ++ [v]) else (f', st.2)) (indeg, rest)).1
        ((lookupE g u).foldl (fun st v =>
          let f' := decI st.1 v
          if f' v = 0 then (f', st.2 ++ [v]) else (f', st.2)) (indeg, rest)).2
        (order ++ [u])
      refine ⟨[u] ++ tail, ?_⟩
      show kahnLoop g (fuel + 1) indeg (u :: rest) order = _
      have hred : kahnLoop g (fuel + 1) indeg (u :: rest) order =
          kahnLoop g fuel
            ((lookupE g u).foldl (fun st v =>
              let f' := decI st.1 v
              if f' v = 0 then (f', st.2 ++ [v]) else (f', st.2)) (indeg, rest)).1
            ((lookupE g u).foldl (fun st v =>
              let f' := decI st.1 v
              if f' v = 0 then (f', st.2 ++ [v]) else (f', st.2)) (indeg, rest)).2
            (order ++ [u]) := rfl
      rw [hred, ht, List.append_assoc]

/-- The first element of the produced order is the first zero in-degree key. -/
theorem kahnOrder_head (g : EdgeMap) {u : String} {rest : List String}
    (h : initQueue g = u :: rest) : ∃ tail, kahnOrder g = u :: tail := by
  unfold kahnOrder
  rw [h]
  obtain ⟨tail, ht⟩ := kahnLoop_extends g ((keysA g).length)
    ((lookupE g u).foldl (fun st v =>
      let f' := decI st.1 v
      if f' v = 0 then (f', st.2 ++ [v]) else (f', st.2)) (initIndeg g, rest)).1
    ((lookupE g u).foldl (fun st v =>
      let f' := decI st.1 v
      if f' v = 0 then (f', st.2 ++ [v]) else (f', st.2)) (initIndeg g, rest)).2
    ([] ++ [u])
  refine ⟨tail, ?_⟩
  have hred : kahnLoop g ((keysA g).length + 1) (initIndeg g) (u :: rest) [] =
      kahnLoop g ((keysA g).length)
        ((lookupE g u).foldl (fun st v =>
          let f' := decI st.1 v
          if f' v = 0 then (f', st.2 ++ [v]) else (f', st.2)) (initIndeg g, rest)).1
        ((lookupE g u).foldl (fun st v =>
          let f' := decI st.1 v
          if f' v = 0 then (f', st.2 ++ [v]) else (f', st.2)) (initIndeg g, rest)).2
        ([] ++ [u]) := rfl
  rw [hred, ht]
  rfl

/-- Along the produced order, `TransGen` predecessors appear strictly
earlier. -/
theorem kahnOrder_transGen_before (g : EdgeMap) (hknd : (keysA g).Nodup)
    (hval : ∀ a b, b ∈ lookupE g a → b ∈ keysA g) {x y : String}
    (hxy : Relation.TransGen (fun a b => b ∈ lookupE g a) x y) :
    ∀ k, (kahnOrder g).get? k = some y →
      ∃ j, j < k ∧ (kahnOrder g).get? j = some x := by
  obtain ⟨-, -, hP3, -⟩ := kahnOrder_spec g hknd hval
  induction hxy with
  | single h1 =>
    intro k hk
    exact hP3 k _ hk _ h1
  | tail h1 h2 ihh =>
    intro k hk
    obtain ⟨j, hj, hgj⟩ := hP3 k _ hk _ h2
    obtain ⟨i, hi, hgi⟩ := ihh j hgj
    exact ⟨i, by omega, hgi⟩

/-- A node lying on a cycle is never ordered by Kahn's algorithm. -/
theorem not_mem_kahnOrder_of_cycle (g : EdgeMap) (hknd : (keysA g).Nodup)
    (hval : ∀ a b, b ∈ lookupE g a → b ∈ keysA g) {x : String}
    (hcyc : Relation.TransGen (fun a b => b ∈ lookupE g a) x x) :
    x ∉ kahnOrder g := by
  intro hmem
  obtain ⟨k, hk⟩ := List.mem_iff_get?.mp hmem
  have main : ∀ k, (kahnOrder g).get? k = some x → False := by
    intro k
    induction k using Nat.strong_induction_on with
    | _ k ihk =>
      intro hk
      obtain ⟨j, hj, hgj⟩ := kahnOrder_transGen_before g hknd hval hcyc k hk
      exact ihk j hj hgj
  exact main k hk

theorem exists_cycle_of_pred (S : Finset String) (R : String → String → Prop)
    (hne : S.Nonempty) (hstep : ∀ y ∈ S, ∃ u ∈ S, R u y) :
    ∃ x ∈ S, Relation.TransGen R x x := by
  classical
  have hf : ∀ y, ∃ u, y ∈ S → u ∈ S ∧ R u y := by
    intro y
    by_cases h : y ∈ S
    · obtain ⟨u, hu, hr⟩ := hstep y h
      exact ⟨u, fun _ => ⟨hu, hr⟩⟩
    · exact ⟨y, fun h' => absurd h' h⟩
  choose f hfspec using hf
  set seq : Nat → String := fun n => Nat.rec hne.choose (fun _ ih => f ih) n with hseq
  have hseq0 : seq 0 = hne.choose := rfl
  have hseqS : ∀ n, seq (n + 1) = f (seq n) := fun n => rfl
  have hmem : ∀ n, seq n ∈ S := by
    intro n
    induction n with
    | zero => exact hne.choose_spec
    | succ n ihn =>
      rw [hseqS]
      exact (hfspec (seq n) ihn).1
  have hR : ∀ n, R (seq (n + 1)) (seq n) := by
    intro n
    rw [hseqS]
    exact (hfspec (seq n) (hmem n)).2
  have hchain : ∀ (d n : Nat), Relation.TransGen R (seq (n + d + 1)) (seq n) := by
    intro d
    induction d with
    | zero => intro n; exact Relation.TransGen.single (hR n)
    | succ d ihd =>
      intro n
      have h1 : R (seq (n + d + 2)) (seq (n + d + 1)) := hR (n + d + 1)
      exact Relation.TransGen.head h1 (ihd n)
  have hcard : S.card < (Finset.range (S.card + 1)).card := by
    rw [Finset.card_range]
    omega
  have hmaps : ∀ i ∈ Finset.range (S.card + 1), seq i ∈ S := fun i _ => hmem i
  have hpig := Finset.exists_ne_map_eq_of_card_lt_of_maps_to hcard hmaps
  obtain ⟨i, -, j, -, hij, hfij⟩ := hpig
  rcases Nat.lt_or_ge i j with hlt | hge
  · obtain ⟨d, rfl⟩ : ∃ d, j = i + d + 1 := ⟨j - i - 1, by omega⟩
    exact ⟨seq i, hmem i, hfij ▸ hchain d i⟩
  · have hlt : j < i := by omega
    obtain ⟨d, rfl⟩ : ∃ d, i = j + d + 1 := ⟨i - j - 1, by omega⟩
    exact ⟨seq j, hmem j, hfij ▸ hchain d j⟩

/-- On an acyclic graph Kahn's algorithm orders every key. -/
theorem mem_kahnOrder_of_acyclic (g : EdgeMap) (hknd : (keysA g).Nodup)
    (hval : ∀ a b, b ∈ lookupE g a → b ∈ keysA g)
    (hacyc : ∀ x, ¬ Relation.TransGen (fun a b => b ∈ lookupE g a) x x) :
    ∀ v ∈ keysA g, v ∈ kahnOrder g := by
  intro v hvk
  by_contra hvno
  obtain ⟨-, -, -, hP4⟩ := kahnOrder_spec g hknd hval
  have hstep : ∀ y ∈ (keysA g).toFinset.filter (fun x => x ∉ kahnOrder g),
      ∃ u ∈ (keysA g).toFinset.filter (fun x => x ∉ kahnOrder g),
        (fun a b => b ∈ lookupE g a) u y := by
    intro y hy
    rw [Finset.mem_filter, List.mem_toFinset] at hy
    obtain ⟨u, huk, huno, hadj⟩ := hP4 y hy.1 hy.2
    exact ⟨u, Finset.mem_filter.mpr ⟨List.mem_toFinset.mpr huk, huno⟩, hadj⟩
  obtain ⟨x, -, hcyc⟩ := exists_cycle_of_pred _ _
    ⟨v, Finset.mem_filter.mpr ⟨List.mem_toFinset.mpr hvk, hvno⟩⟩ hstep
  exact hacyc x hcyc

/-- When the order is complete (same length as the key set) it contains
every key. -/
theorem mem_kahnOrder_of_complete (g : EdgeMap) (hknd : (keysA g).Nodup)
    (hval : ∀ a b, b ∈ lookupE g a → b ∈ keysA g)
    (hlen : (kahnOrder g).length = (keysA g).length) :
    ∀ v ∈ keysA g, v ∈ kahnOrder g := by
  obtain ⟨hP1, hP2, -, -⟩ := kahnOrder_spec g hknd hval
  have hsub : (kahnOrder g).toFinset ⊆ (keysA g).toFinset :=
    fun x hx => List.mem_toFinset.mpr (hP2 x (List.mem_toFinset.mp hx))
  have hcard : (keysA g).toFinset.card ≤ (kahnOrder g).toFinset.card := by
    rw [List.toFinset_card_of_nodup hP1, List.toFinset_card_of_nodup hknd]
    omega
  have heq := Finset.eq_of_subset_of_card_le hsub hcard
  intro v hv
  have : v ∈ (kahnOrder g).toFinset := heq ▸ List.mem_toFinset.mpr hv
  exact List.mem_toFinset.mp this

/-! ## Structure of `build_event_graph` -/

theorem hasKeyA_iff {α : Type} (m : AList α) (k : String) :
    hasKeyA m k = true ↔ k ∈ keysA m := by
  unfold hasKeyA
  rw [← lookupA_isSome_iff]
  unfold lookupA
  cases h : List.find? (fun kv => kv.1 == k) m <;> simp [h]

theorem perm_append_single (l : List String) (a : String) :
    List.Perm (l ++ [a]) (a :: l) := by
  have h := @List.perm_middle String a l []
  rw [List.append_nil] at h
  exact h

theorem nodup_append_single {l : List String} {a : String} (h : l.Nodup)
    (ha : a ∉ l) : (l ++ [a]).Nodup :=
  (perm_append_single l a).nodup_iff.mpr (List.nodup_cons.mpr ⟨ha, h⟩)

theorem lookupA_pushChild (g : EdgeMap) (p c : String) :
    ∀ x, lookupA (pushChild g p c) x =
      if x = p then some ((lookupA g p).getD [] ++ [c]) else lookupA g x := by
  induction g with
  | nil =>
    intro x
    simp only [pushChild]
    by_cases h : x = p
    · subst h
      simp [lookupA_cons, lookupA_nil]
    · have h' : ¬(p = x) := fun hh => h hh.symm
      simp [lookupA_cons, lookupA_nil, h, h']
  | cons kv rest ih =>
    intro x
    simp only [pushChild]
    by_cases hk : kv.1 = p
    · subst hk
      rw [if_pos rfl]
      by_cases hx : kv.1 = x
      · subst hx
        simp [lookupA_cons]
      · have hx' : ¬(x = kv.1) := fun hh => hx hh.symm
        simp [lookupA_cons, hx, hx']
    · rw [if_neg hk]
      by_cases hx : kv.1 = x
      · subst hx
        have hxp : ¬(kv.1 = p) := hk
        simp [lookupA_cons, hxp, ih]
      · by_cases hxp : x = p
        · subst hxp
          simp [lookupA_cons, hx, hk, ih]
        · simp [lookupA_cons, hx, hxp, ih]

theorem keysA_pushChild (g : EdgeMap) (p c : String) :
    keysA (pushChild g p c) = if p ∈ keysA g then keysA g else keysA g ++ [p] := by
  induction g with
  | nil => simp [pushChild, keysA]
  | cons kv rest ih =>
    simp only [pushChild]
    by_cases hk : kv.1 = p
    · subst hk
      rw [if_pos rfl]
      have hmem : kv.1 ∈ keysA (kv :: rest) := by
        show kv.1 ∈ kv.1 :: keysA rest
        exact List.mem_cons_self _ _
      rw [if_pos hmem]
      rfl
    · rw [if_neg hk]
      have hk' : ¬(p = kv.1) := fun hh => hk hh.symm
      have hkeys : keysA (kv :: pushChild rest p c) =
          kv.1 :: keysA (pushChild rest p c) := rfl
      rw [hkeys, ih]
      by_cases hp : p ∈ keysA rest
      · rw [if_pos hp]
        have hmem : p ∈ keysA (kv :: rest) := by
          show p ∈ kv.1 :: keysA rest
          exact List.mem_cons_of_mem _ hp
        rw [if_pos hmem]
        rfl
      · rw [if_neg hp]
        have hmem : p ∉ keysA (kv :: rest) := by
          show p ∉ kv.1 :: keysA rest
          rw [List.mem_cons]
          rintro (hh | hh)
          · exact hk' hh
          · exact hp hh
        rw [if_neg hmem]
        rfl

theorem keysA_touchKey (g : EdgeMap) (e : String) :
    keysA (touchKey g e) = if e ∈ keysA g then keysA g else keysA g ++ [e] := by
  unfold touchKey
  by_cases h : e ∈ keysA g
  · rw [if_pos ((hasKeyA_iff g e).mpr h), if_pos h]
  · rw [if_neg (fun hc => h ((hasKeyA_iff g e).mp hc)), if_neg h]
    simp [keysA]

theorem nodup_keysA_pushChild {g : EdgeMap} (h : (keysA g).Nodup) (p c : String) :
    (keysA (pushChild g p c)).Nodup := by
  rw [keysA_pushChild]
  by_cases hp : p ∈ keysA g
  · rw [if_pos hp]; exact h
  · rw [if_neg hp]; exact nodup_append_single h hp

theorem nodup_keysA_touchKey {g : EdgeMap} (h : (keysA g).Nodup) (e : String) :
    (keysA (touchKey g e)).Nodup := by
  rw [keysA_touchKey]
  by_cases he : e ∈ keysA g
  · rw [if_pos he]; exact h
  · rw [if_neg he]; exact nodup_append_single h he

/-- Occurrences of `v` among all child lists (entry-level). -/
def valCount (g : EdgeMap) (v : String) : Nat :=
  (g.map (fun kv => kv.2.count v)).sum

theorem valCount_touchKey (g : EdgeMap) (e v : String) :
    valCount (touchKey g e) v = valCount g v := by
  unfold touchKey
  by_cases h : hasKeyA g e = true
  · rw [if_pos h]
  · rw [if_neg h]
    unfold valCount
    simp

theorem valCount_pushChild (g : EdgeMap) (p c v : String) :
    valCount (pushChild g p c) v = valCount g v + (if c = v then 1 else 0) := by
  induction g with
  | nil =>
    simp only [pushChild]
    unfold valCount
    simp only [List.map_cons, List.map_nil, List.sum_cons, List.sum_nil]
    by_cases h : c = v
    · subst h; simp
    · have hz : ([c].count v) = 0 :=
        List.count_eq_zero.mpr (fun hm => h (List.mem_singleton.mp hm).symm)
      simp [hz, h]
  | cons kv rest ih =>
    simp only [pushChild]
    by_cases hk : kv.1 = p
    · rw [if_pos hk]
      unfold valCount
      simp only [List.map_cons, List.sum_cons, List.count_append]
      have hcnt : ([c].count v) = if c = v then 1 else 0 := by
        by_cases h : c = v
        · subst h; simp
        · rw [if_neg h]
          exact List.count_eq_zero.mpr (fun hmem => h (List.mem_singleton.mp hmem).symm)
      omega
    · rw [if_neg hk]
      unfold valCount at ih ⊢
      simp only [List.map_cons, List.sum_cons]
      omega

theorem cast_sum_map {α : Type} (l : List α) (c : α → Nat) :
    ((l.map (fun x => (c x : Int))).sum) = ((l.map c).sum : Int) := by
  induction l with
  | nil => simp
  | cons a rest ih =>
    simp only [List.map_cons, List.sum_cons, ih]
    push_cast
    ring

theorem totN_eq_valCount (g : EdgeMap) (hnd : (keysA g).Nodup) (v : String) :
    totN g v = valCount g v := by
  have h := entries_sum_eq_keys_sum g hnd (fun _ l => (l.count v : Int))
  have h1 := cast_sum_map g (fun kv => kv.2.count v)
  have h2 := cast_sum_map (keysA g) (fun u => (lookupE g u).count v)
  have hmain : (valCount g v : Int) = (totN g v : Int) := by
    unfold valCount totN cntIn
    rw [← h1, ← h2]
    exact h
  exact_mod_cast hmain.symm

/-- Processing of one `(branch, event, parents)` entry by the graph builder. -/
def procEntry (g : EdgeMap) (t : String × String × List String) : EdgeMap :=
  t.2.2.foldl (fun g par => pushChild g par t.2.1) (touchKey g t.2.1)

theorem build_event_graph_eq (data : Model) :
    build_event_graph data = (entriesM data).foldl procEntry [] := by
  suffices h : ∀ init, data.foldl (fun g b =>
      b.2.foldl (fun g ep =>
        ep.2.foldl (fun g par => pushChild g par ep.1) (touchKey g ep.1)) g) init =
      (entriesM data).foldl procEntry init from h []
  induction data with
  | nil => intro init; rfl
  | cons b rest ih =>
    intro init
    rw [List.foldl_cons]
    have hent : entriesM (b :: rest) =
        b.2.map (fun ep => (b.1, ep)) ++ entriesM rest := by
      unfold entriesM
      rw [List.flatMap_cons]
    rw [hent, List.foldl_append, ih]
    congr 1
    rw [List.foldl_map]
    rfl

theorem mem_keysA_pushChild (g : EdgeMap) (p c x : String) :
    x ∈ keysA (pushChild g p c) ↔ x ∈ keysA g ∨ x = p := by
  rw [keysA_pushChild]
  by_cases hp : p ∈ keysA g
  · rw [if_pos hp]
    constructor
    · exact Or.inl
    · rintro (h | rfl)
      · exact h
      · exact hp
  · rw [if_neg hp, List.mem_append, List.mem_singleton]

theorem mem_keysA_touchKey (g : EdgeMap) (e x : String) :
    x ∈ keysA (touchKey g e) ↔ x ∈ keysA g ∨ x = e := by
  rw [keysA_touchKey]
  by_cases he : e ∈ keysA g
  · rw [if_pos he]
    constructor
    · exact Or.inl
    · rintro (h | rfl)
      · exact h
      · exact he
  · rw [if_neg he, List.mem_append, List.mem_singleton]

theorem mem_keysA_procEntry (g : EdgeMap) (t : String × String × List String)
    (x : String) :
    x ∈ keysA (procEntry g t) ↔ x ∈ keysA g ∨ x = t.2.1 ∨ x ∈ t.2.2 := by
  unfold procEntry
  have main : ∀ (ps : List String) (g' : EdgeMap),
      x ∈ keysA (ps.foldl (fun g par => pushChild g par t.2.1) g') ↔
        x ∈ keysA g' ∨ x ∈ ps := by
    intro ps
    induction ps with
    | nil => intro g'; simp
    | cons p ps' ihp =>
      intro g'
      rw [List.foldl_cons, ihp, mem_keysA_pushChild, List.mem_cons]
      tauto
  rw [main, mem_keysA_touchKey]
  tauto

theorem nodup_keysA_procEntry {g : EdgeMap} (h : (keysA g).Nodup)
    (t : String × String × List String) : (keysA (procEntry g t)).Nodup := by
  unfold procEntry
  have main : ∀ (ps : List String) (g' : EdgeMap), (keysA g').Nodup →
      (keysA (ps.foldl (fun g par => pushChild g par t.2.1) g')).Nodup := by
    intro ps
    induction ps with
    | nil => intro g' h'; exact h'
    | cons p ps' ihp =>
      intro g' h'
      exact ihp _ (nodup_keysA_pushChild h' _ _)
  exact main _ _ (nodup_keysA_touchKey h _)

theorem build_keys_nodup (data : Model) :
    (keysA (build_event_graph data)).Nodup := by
  rw [build_event_graph_eq]
  have main : ∀ (L : List (String × String × List String)) (g : EdgeMap),
      (keysA g).Nodup → (keysA (L.foldl procEntry g)).Nodup := by
    intro L
    induction L with
    | nil => intro g h; exact h
    | cons t L' ihl =>
      intro g h
      exact ihl _ (nodup_keysA_procEntry h t)
  exact main _ [] (by simp [keysA])

theorem mem_keysA_build (data : Model) (x : String) :
    x ∈ keysA (build_event_graph data) ↔
      (∃ t ∈ entriesM data, t.2.1 = x) ∨ ∃ t ∈ entriesM data, x ∈ t.2.2 := by
  rw [build_event_graph_eq]
  have main : ∀ (L : List (String × String × List String)) (g : EdgeMap),
      x ∈ keysA (L.foldl procEntry g) ↔
        x ∈ keysA g ∨ (∃ t ∈ L, t.2.1 = x) ∨ ∃ t ∈ L, x ∈ t.2.2 := by
    intro L
    induction L with
    | nil => intro g; simp
    | cons t L' ihl =>
      intro g
      rw [List.foldl_cons, ihl, mem_keysA_procEntry]
      constructor
      · rintro ((h | rfl | h) | ⟨t', ht', h⟩ | ⟨t', ht', h⟩)
        · exact Or.inl h
        · exact Or.inr (Or.inl ⟨t, List.mem_cons_self _ _, rfl⟩)
        · exact Or.inr (Or.inr ⟨t, List.mem_cons_self _ _, h⟩)
        · exact Or.inr (Or.inl ⟨t', List.mem_cons_of_mem _ ht', h⟩)
        · exact Or.inr (Or.inr ⟨t', List.mem_cons_of_mem _ ht', h⟩)
      · rintro (h | ⟨t', ht', h⟩ | ⟨t', ht', h⟩)
        · exact Or.inl (Or.inl h)
        · rcases List.mem_cons.mp ht' with rfl | ht''
          · exact Or.inl (Or.inr (Or.inl h.symm))
          · exact Or.inr (Or.inl ⟨t', ht'', h⟩)
        · rcases List.mem_cons.mp ht' with rfl | ht''
          · exact Or.inl (Or.inr (Or.inr h))
          · exact Or.inr (Or.inr ⟨t', ht'', h⟩)
  rw [main]
  simp [keysA]

theorem mem_lookupE_pushChild (g : EdgeMap) (p c x y : String) :
    y ∈ lookupE (pushChild g p c) x ↔ y ∈ lookupE g x ∨ (x = p ∧ y = c) := by
  unfold lookupE
  rw [lookupA_pushChild]
  by_cases h : x = p
  · subst h
    rw [if_pos rfl]
    simp only [Option.getD_some, List.mem_append, List.mem_singleton]
    tauto
  · simp [h]

theorem mem_lookupE_touchKey (g : EdgeMap) (e x y : String) :
    y ∈ lookupE (touchKey g e) x ↔ y ∈ lookupE g x := by
  unfold lookupE
  rw [lookupA_touchKey]
  rcases hl : lookupA g x with _ | l
  · by_cases h : x = e <;> simp [h, Option.or]
  · simp [Option.or]

theorem mem_lookupE_procEntry (g : EdgeMap) (t : String × String × List String)
    (x y : String) :
    y ∈ lookupE (procEntry g t) x ↔ y ∈ lookupE g x ∨ (y = t.2.1 ∧ x ∈ t.2.2) := by
  unfold procEntry
  have main : ∀ (ps : List String) (g' : EdgeMap),
      y ∈ lookupE (ps.foldl (fun g par => pushChild g par t.2.1) g') x ↔
        y ∈ lookupE g' x ∨ (y = t.2.1 ∧ x ∈ ps) := by
    intro ps
    induction ps with
    | nil => intro g'; simp
    | cons p ps' ihp =>
      intro g'
      rw [List.foldl_cons, ihp, mem_lookupE_pushChild, List.mem_cons]
      tauto
  rw [main, mem_lookupE_touchKey]

theorem mem_lookupE_build (data : Model) (x y : String) :
    y ∈ lookupE (build_event_graph data) x ↔
      ∃ t ∈ entriesM data, t.2.1 = y ∧ x ∈ t.2.2 := by
  rw [build_event_graph_eq]
  have main : ∀ (L : List (String × String × List String)) (g : EdgeMap),
      y ∈ lookupE (L.foldl procEntry g) x ↔
        y ∈ lookupE g x ∨ ∃ t ∈ L, t.2.1 = y ∧ x ∈ t.2.2 := by
    intro L
    induction L with
    | nil => intro g; simp
    | cons t L' ihl =>
      intro g
      rw [List.foldl_cons, ihl, mem_lookupE_procEntry]
      constructor
      · rintro ((h | ⟨rfl, h⟩) | ⟨t', ht', h1, h2⟩)
        · exact Or.inl h
        · exact Or.inr ⟨t, List.mem_cons_self _ _, rfl, h⟩
        · exact Or.inr ⟨t', List.mem_cons_of_mem _ ht', h1, h2⟩
      · rintro (h | ⟨t', ht', h1, h2⟩)
        · exact Or.inl (Or.inl h)
        · rcases List.mem_cons.mp ht' with rfl | ht''
          · exact Or.inl (Or.inr ⟨h1.symm, h2⟩)
          · exact Or.inr ⟨t', ht'', h1, h2⟩
  rw [main]
  have : lookupE ([] : EdgeMap) x = [] := rfl
  rw [this]
  simp

theorem valCount_procEntry (g : EdgeMap) (t : String × String × List String)
    (v : String) :
    valCount (procEntry g t) v =
      valCount g v + (if t.2.1 = v then t.2.2.length else 0) := by
  unfold procEntry
  have main : ∀ (ps : List String) (g' : EdgeMap),
      valCount (ps.foldl (fun g par => pushChild g par t.2.1) g') v =
        valCount g' v + (if t.2.1 = v then ps.length else 0) := by
    intro ps
    induction ps with
    | nil => intro g'; simp
    | cons p ps' ihp =>
      intro g'
      rw [List.foldl_cons, ihp, valCount_pushChild, List.length_cons]
      by_cases h : t.2.1 = v
      · rw [if_pos h, if_pos h, if_pos h]
        omega
      · rw [if_neg h, if_neg h, if_neg h]
  rw [main, valCount_touchKey]

theorem valCount_build (data : Model) (v : String) :
    valCount (build_event_graph data) v =
      ((entriesM data).map (fun t => if t.2.1 = v then t.2.2.length else 0)).sum := by
  rw [build_event_graph_eq]
  have main : ∀ (L : List (String × String × List String)) (g : EdgeMap),
      valCount (L.foldl procEntry g) v =
        valCount g v + (L.map (fun t => if t.2.1 = v then t.2.2.length else 0)).sum := by
    intro L
    induction L with
    | nil => intro g; simp
    | cons t L' ihl =>
      intro g
      rw [List.foldl_cons, ihl, valCount_procEntry, List.map_cons, List.sum_cons]
      omega
  rw [main]
  have : valCount ([] : EdgeMap) v = 0 := rfl
  rw [this]
  omega

/-! ## Clock arithmetic helpers -/

theorem zipWith_max_getD :
    ∀ (a b : List Int) (i : Nat), i < a.length → a.length = b.length →
      (List.zipWith max a b).getD i 0 = max (a.getD i 0) (b.getD i 0) := by
  intro a
  induction a with
  | nil => intro b i hi; simp at hi
  | cons x a' ih =>
    intro b i hi hlen
    cases b with
    | nil => simp at hlen
    | cons y b' =>
      cases i with
      | zero => simp
      | succ j =>
        simp only [List.zipWith_cons_cons, List.getD_cons_succ]
        exact ih b' j (by simpa using hi) (by simpa using hlen)

theorem zipWith_max_length (a b : List Int) :
    (List.zipWith max a b).length = min a.length b.length := List.length_zipWith _ _ _

theorem incAt_length (l : List Int) (i : Nat) : (incAt l i).length = l.length := by
  unfold incAt
  exact List.length_set l i _

theorem getD_set_self (l : List Int) (i : Nat) (x : Int) (h : i < l.length) :
    (l.set i x).getD i 0 = x := by
  induction l generalizing i with
  | nil => simp at h
  | cons a rest ih =>
    cases i with
    | zero => simp
    | succ j =>
      simp only [List.set_cons_succ, List.getD_cons_succ]
      exact ih j (by simpa using h)

theorem getD_set_ne (l : List Int) (i j : Nat) (x : Int) (h : j ≠ i) :
    (l.set i x).getD j 0 = l.getD j 0 := by
  induction l generalizing i j with
  | nil => simp
  | cons a rest ih =>
    cases i with
    | zero =>
      cases j with
      | zero => exact absurd rfl h
      | succ j' => simp
    | succ i' =>
      cases j with
      | zero => simp
      | succ j' =>
        simp only [List.set_cons_succ, List.getD_cons_succ]
        exact ih i' j' (fun hh => h (by omega))

theorem incAt_getD_self (l : List Int) (i : Nat) (h : i < l.length) :
    (incAt l i).getD i 0 = l.getD i 0 + 1 := by
  unfold incAt
  exact getD_set_self l i _ h

theorem incAt_getD_ne (l : List Int) (i j : Nat) (h : j ≠ i) :
    (incAt l i).getD j 0 = l.getD j 0 := by
  unfold incAt
  exact getD_set_ne l i j _ h

theorem getD_replicate (n i : Nat) (h : i < n) :
    (List.replicate n (0 : Int)).getD i 0 = 0 := by
  induction n generalizing i with
  | zero => omega
  | succ n' ih =>
    cases i with
    | zero => simp
    | succ j =>
      simp only [List.replicate_succ, List.getD_cons_succ]
      exact ih j (by omega)

/-! ## `foldParents` and `assignClocks` -/

theorem foldParents_error (m : AList (List Int)) :
    ∀ (ps : List String) (acc : List Int) (err : CVCError),
      foldParents m ps acc = Except.error err → err = CVCError.missingParentClock := by
  intro ps
  induction ps with
  | nil => intro acc err h; simp [foldParents] at h
  | cons p ps' ih =>
    intro acc err h
    unfold foldParents at h
    rcases hp : lookupA m p with _ | pc
    · rw [hp] at h
      rw [Except.error.injEq] at h
      exact h.symm
    · rw [hp] at h
      exact ih _ err h

theorem foldParents_ok_sources (m : AList (List Int)) :
    ∀ (ps : List String) (acc r : List Int),
      foldParents m ps acc = Except.ok r →
      ∀ p ∈ ps, (lookupA m p).isSome := by
  intro ps
  induction ps with
  | nil => intro acc r _ p hp; simp at hp
  | cons p' ps' ih =>
    intro acc r h p hp
    unfold foldParents at h
    rcases hp' : lookupA m p' with _ | pc
    · rw [hp'] at h
      exact Except.noConfusion h
    · rw [hp'] at h
      rcases List.mem_cons.mp hp with rfl | hmem
      · rw [hp']
        rfl
      · exact ih _ r h p hmem

theorem foldParents_ok (m : AList (List Int)) (n : Nat)
    (hm : ∀ x c, lookupA m x = some c → c.length = n) :
    ∀ (ps : List String) (acc : List Int), acc.length = n →
      (∀ p ∈ ps, (lookupA m p).isSome) →
      ∃ r, foldParents m ps acc = Except.ok r ∧ r.length = n ∧
        (∀ i, i < n → acc.getD i 0 ≤ r.getD i 0) ∧
        (∀ p ∈ ps, ∀ cp, lookupA m p = some cp →
          ∀ i, i < n → cp.getD i 0 ≤ r.getD i 0) := by
  intro ps
  induction ps with
  | nil =>
    intro acc hacc _
    refine ⟨acc, rfl, hacc, fun i _ => le_refl _, ?_⟩
    intro p hp
    simp at hp
  | cons p ps' ih =>
    intro acc hacc hsome
    have hps : (lookupA m p).isSome := hsome p (List.mem_cons_self _ _)
    rcases hp : lookupA m p with _ | pc
    · rw [hp] at hps
      simp at hps
    · have hpc : pc.length = n := hm p pc hp
      have hacc' : (List.zipWith max acc pc).length = n := by
        rw [zipWith_max_length, hacc, hpc]
        omega
      obtain ⟨r, hr, hrlen, hmono, hpar⟩ := ih (List.zipWith max acc pc) hacc'
        (fun q hq => hsome q (List.mem_cons_of_mem _ hq))
      have hmax : ∀ i, i < n → (List.zipWith max acc pc).getD i 0 =
          max (acc.getD i 0) (pc.getD i 0) := by
        intro i hi
        exact zipWith_max_getD acc pc i (by omega) (by omega)
      refine ⟨r, ?_, hrlen, ?_, ?_⟩
      · unfold foldParents
        rw [hp]
        exact hr
      · intro i hi
        have := hmono i hi
        have := hmax i hi
        omega
      · intro q hq cq hcq i hi
        rcases List.mem_cons.mp hq with rfl | hmem
        · rw [hp] at hcq
          rw [Option.some.injEq] at hcq
          subst hcq
          have h1 := hmono i hi
          have h2 := hmax i hi
          omega
        · exact hpar q hmem cq hcq i hi

theorem assignClocks_error_cases (data : Model) (n : Nat) :
    ∀ (L : List String) (m : AList (List Int)) (err : CVCError),
      assignClocks data n L m = Except.error err →
      err = CVCError.missingParentClock ∨ err = CVCError.noBranch := by
  intro L
  induction L with
  | nil => intro m err h; simp [assignClocks] at h
  | cons e rest ih =>
    intro m err h
    unfold assignClocks at h
    rcases hfp : foldParents m (get_parents data e) (List.replicate n 0) with err' | clock
    · rw [hfp] at h
      rw [Except.error.injEq] at h
      subst h
      exact Or.inl (foldParents_error m _ _ _ hfp)
    · rw [hfp] at h
      rcases hbr : findBranchOf data e with _ | b
      · rw [hbr] at h
        rw [Except.error.injEq] at h
        exact Or.inr h.symm
      · rw [hbr] at h
        exact ih _ err h

theorem assignClocks_ok_facts (data : Model) (n : Nat) :
    ∀ (L : List String) (m mf : AList (List Int)),
      assignClocks data n L m = Except.ok mf →
      ∀ e ∈ L, (findBranchOf data e).isSome ∧
        ∀ p ∈ get_parents data e, (lookupA m p).isSome ∨ p ∈ L := by
  intro L
  induction L with
  | nil => intro m mf _ e he; simp at he
  | cons e' rest ih =>
    intro m mf h e he
    unfold assignClocks at h
    rcases hfp : foldParents m (get_parents data e') (List.replicate n 0) with err' | clock
    · rw [hfp] at h
      exact Except.noConfusion h
    · rw [hfp] at h
      rcases hbr : findBranchOf data e' with _ | b
      · rw [hbr] at h
        exact Except.noConfusion h
      · rw [hbr] at h
        rcases List.mem_cons.mp he with rfl | hmem
        · refine ⟨by rw [hbr]; rfl, ?_⟩
          intro p hp
          exact Or.inl (foldParents_ok_sources m _ _ _ hfp p hp)
        · obtain ⟨h1, h2⟩ := ih _ mf h e hmem
          refine ⟨h1, ?_⟩
          intro p hp
          rcases h2 p hp with hcase | hcase
          · rw [lookupA_assocSet] at hcase
            by_cases hpe : p = e'
            · exact Or.inr (hpe ▸ List.mem_cons_self _ _)
            · rw [if_neg hpe] at hcase
              exact Or.inl hcase
          · exact Or.inr (List.mem_cons_of_mem _ hcase)

/-- Main specification of the clock-assignment loop: with fresh, branch-
resolvable events whose parents are either already assigned or appear
earlier in the list, the loop succeeds and every processed event's clock
dominates each of its parents' clocks, strictly at the event's own branch
index. -/
theorem assignClocks_spec (data : Model) (n : Nat) :
    ∀ (L : List String) (m : AList (List Int)),
      (∀ x c, lookupA m x = some c → c.length = n) →
      L.Nodup →
      (∀ e ∈ L, lookupA m e = none) →
      (∀ e ∈ L, ∃ b, findBranchOf data e = some b ∧ branchIdx data b < n) →
      (∀ k e, L.get? k = some e → ∀ p ∈ get_parents data e,
        (lookupA m p).isSome = true ∨ ∃ j, j < k ∧ L.get? j = some p) →
      ∃ mf, assignClocks data n L m = Except.ok mf ∧
        (∀ x c, lookupA m x = some c → lookupA mf x = some c) ∧
        (∀ x c, lookupA mf x = some c → c.length = n) ∧
        (∀ e ∈ L, ∀ p ∈ get_parents data e, ∃ ce cp,
          lookupA mf e = some ce ∧ lookupA mf p = some cp ∧
          (∀ i, i < n → cp.getD i 0 ≤ ce.getD i 0) ∧
          ∀ b, findBranchOf data e = some b →
            cp.getD (branchIdx data b) 0 < ce.getD (branchIdx data b) 0) := by
  intro L
  induction L with
  | nil =>
    intro m hm _ _ _ _
    refine ⟨m, rfl, fun x c h => h, hm, ?_⟩
    intro e he
    simp at he
  | cons e rest ih =>
    intro m hm hnd hfresh hbr hpar
    obtain ⟨b, hb, hbn⟩ := hbr e (List.mem_cons_self _ _)
    have hpsrc : ∀ p ∈ get_parents data e, (lookupA m p).isSome = true := by
      intro p hp
      rcases hpar 0 e rfl p hp with h | ⟨j, hj, _⟩
      · exact h
      · omega
    obtain ⟨r, hfp, hrlen, hrmono, hrpar⟩ := foldParents_ok m n hm
      (get_parents data e) (List.replicate n 0) (List.length_replicate _ _) hpsrc
    set ce := incAt r (branchIdx data b) with hce
    have hcelen : ce.length = n := by
      rw [hce, incAt_length, hrlen]
    have hfreshE : lookupA m e = none := hfresh e (List.mem_cons_self _ _)
    have hndrest : rest.Nodup := (List.nodup_cons.mp hnd).2
    have hnotmem : e ∉ rest := (List.nodup_cons.mp hnd).1
    have hm' : ∀ x c, lookupA (assocSet m e ce) x = some c → c.length = n := by
      intro x c h
      rw [lookupA_assocSet] at h
      by_cases hx : x = e
      · rw [if_pos hx] at h
        rw [Option.some.injEq] at h
        subst h
        exact hcelen
      · rw [if_neg hx] at h
        exact hm x c h
    have hfresh' : ∀ e' ∈ rest, lookupA (assocSet m e ce) e' = none := by
      intro e' he'
      rw [lookupA_assocSet]
      have : e' ≠ e := fun hh => hnotmem (hh ▸ he')
      rw [if_neg this]
      exact hfresh e' (List.mem_cons_of_mem _ he')
    have hbr' : ∀ e' ∈ rest, ∃ b', findBranchOf data e' = some b' ∧ branchIdx data b' < n :=
      fun e' he' => hbr e' (List.mem_cons_of_mem _ he')
    have hpar' : ∀ k e', rest.get? k = some e' → ∀ p ∈ get_parents data e',
        (lookupA (assocSet m e ce) p).isSome = true ∨
          ∃ j, j < k ∧ rest.get? j = some p := by
      intro k e' hk p hp
      have hk' : (e :: rest).get? (k + 1) = some e' := hk
      rcases hpar (k + 1) e' hk' p hp with h | ⟨j, hj, hgj⟩
      · left
        rw [lookupA_assocSet]
        by_cases hpe : p = e
        · rw [if_pos hpe]
          rfl
        · rw [if_neg hpe]
          exact h
      · cases j with
        | zero =>
          left
          have hep : e = p := by
            have hred : (e :: rest).get? 0 = some e := rfl
            rw [hred] at hgj
            exact Option.some.inj hgj
          rw [lookupA_assocSet, if_pos hep.symm]
          rfl
        | succ j' =>
          right
          exact ⟨j', by omega, hgj⟩
    obtain ⟨mf, hrec, hext, hlen, hper⟩ := ih (assocSet m e ce) hm' hndrest hfresh' hbr' hpar'
    have heq : assignClocks data n (e :: rest) m = Except.ok mf := by
      unfold assignClocks
      rw [hfp, hb]
      exact hrec
    have hextm : ∀ x c, lookupA m x = some c → lookupA mf x = some c := by
      intro x c h
      refine hext x c ?_
      rw [lookupA_assocSet]
      by_cases hx : x = e
      · subst hx
        rw [hfreshE] at h
        exact Option.noConfusion h
      · rw [if_neg hx]
        exact h
    refine ⟨mf, heq, hextm, hlen, ?_⟩
    intro e' he' p hp
    rcases List.mem_cons.mp he' with rfl | hmem
    · -- the head event itself
      have hmfe : lookupA mf e' = some ce := by
        refine hext e' ce ?_
        rw [lookupA_assocSet, if_pos rfl]
      have hpsome := hpsrc p hp
      rcases hmp : lookupA m p with _ | cp
      · rw [hmp] at hpsome
        simp at hpsome
      · have hpe : p ≠ e' := by
          intro hh
          rw [hh, hfreshE] at hmp
          exact Option.noConfusion hmp
        have hmfp : lookupA mf p = some cp := hextm p cp hmp
        have hcp : ∀ i, i < n → cp.getD i 0 ≤ r.getD i 0 :=
          fun i hi => hrpar p hp cp hmp i hi
        refine ⟨ce, cp, hmfe, hmfp, ?_, ?_⟩
        · intro i hi
          by_cases hidx : i = branchIdx data b
          · subst hidx
            rw [hce, incAt_getD_self r _ (by omega)]
            have := hcp (branchIdx data b) hi
            omega
          · rw [hce, incAt_getD_ne r _ _ hidx]
            exact hcp i hi
        · intro b' hb'
          rw [hb] at hb'
          rw [Option.some.injEq] at hb'
          subst hb'
          rw [hce, incAt_getD_self r _ (by omega)]
          have := hcp (branchIdx data b) hbn
          omega
    · exact hper e' hmem p hp

/-! ## Model-level facts -/

theorem eq_of_mem_of_nodup_map {α β : Type} (L : List α) (f : α → β)
    (h : (L.map f).Nodup) : ∀ a ∈ L, ∀ b ∈ L, f a = f b → a = b := by
  induction L with
  | nil => intro a ha; simp at ha
  | cons x rest ih =>
    intro a ha b hb hfab
    rw [List.map_cons, List.nodup_cons] at h
    rcases List.mem_cons.mp ha with rfl | ha'
    · rcases List.mem_cons.mp hb with rfl | hb'
      · rfl
      · exact absurd (hfab ▸ List.mem_map_of_mem f hb') h.1
    · rcases List.mem_cons.mp hb with rfl | hb'
      · exact absurd (hfab ▸ List.mem_map_of_mem f ha') h.1
      · exact ih h.2 a ha' b hb' hfab

theorem find?_eq_of_unique {α : Type} (p : α → Bool) (L : List α) (t₀ : α)
    (h₀ : t₀ ∈ L) (hp : p t₀ = true)
    (huniq : ∀ t ∈ L, p t = true → t = t₀) : L.find? p = some t₀ := by
  induction L with
  | nil => simp at h₀
  | cons x rest ih =>
    by_cases hx : p x = true
    · rw [List.find?_cons_of_pos _ hx]
      rw [huniq x (List.mem_cons_self _ _) hx]
    · rw [List.find?_cons_of_neg _ hx]
      rcases List.mem_cons.mp h₀ with rfl | h₀'
      · exact absurd hp hx
      · exact ih h₀' (fun t ht hpt => huniq t (List.mem_cons_of_mem _ ht) hpt)

theorem mem_entriesM {data : Model} {b : String × List (String × List String)}
    {ep : String × List String} (hb : b ∈ data) (hep : ep ∈ b.2) :
    (b.1, ep.1, ep.2) ∈ entriesM data := by
  unfold entriesM
  rw [List.mem_flatMap]
  refine ⟨b, hb, ?_⟩
  rw [List.mem_map]
  exact ⟨ep, hep, rfl⟩

theorem mem_eventsM_of_entry {data : Model} {t : String × String × List String}
    (ht : t ∈ entriesM data) : t.2.1 ∈ eventsM data := by
  unfold eventsM
  exact List.mem_map_of_mem _ ht

/-- With globally distinct event names, `get_parents` returns exactly the
entry's own parent list, and `findBranchOf` the entry's branch. -/
theorem get_parents_of_unique {data : Model} (hend : (eventsM data).Nodup)
    {t : String × String × List String} (ht : t ∈ entriesM data) :
    get_parents data t.2.1 = t.2.2 ∧ findBranchOf data t.2.1 = some t.1 := by
  have hfind : (entriesM data).find? (fun t' => t'.2.1 == t.2.1) = some t := by
    refine find?_eq_of_unique _ _ t ht (by simp) ?_
    intro t' ht' hpt'
    rw [beq_iff_eq] at hpt'
    exact eq_of_mem_of_nodup_map (entriesM data) (fun t => t.2.1) hend t' ht' t ht hpt'
  constructor
  · unfold get_parents
    rw [hfind]
  · unfold findBranchOf
    rw [hfind]
    rfl

theorem keysA_build_iff_events (data : Model)
    (hres : ∀ t ∈ entriesM data, ∀ p ∈ t.2.2, p ∈ eventsM data) (x : String) :
    x ∈ keysA (build_event_graph data) ↔ x ∈ eventsM data := by
  rw [mem_keysA_build]
  constructor
  · rintro (⟨t, ht, rfl⟩ | ⟨t, ht, hp⟩)
    · exact mem_eventsM_of_entry ht
    · exact hres t ht x hp
  · intro hx
    unfold eventsM at hx
    rw [List.mem_map] at hx
    obtain ⟨t, ht, rfl⟩ := hx
    exact Or.inl ⟨t, ht, rfl⟩

theorem build_val_keys (data : Model) :
    ∀ a c, c ∈ lookupE (build_event_graph data) a →
      c ∈ keysA (build_event_graph data) := by
  intro a c h
  rw [mem_lookupE_build] at h
  obtain ⟨t, ht, rfl, -⟩ := h
  rw [mem_keysA_build]
  exact Or.inl ⟨t, ht, rfl⟩

theorem keys_build_length (data : Model)
    (hres : ∀ t ∈ entriesM data, ∀ p ∈ t.2.2, p ∈ eventsM data)
    (hend : (eventsM data).Nodup) :
    (keysA (build_event_graph data)).length = (eventsM data).length := by
  have h1 : (keysA (build_event_graph data)).toFinset = (eventsM data).toFinset := by
    ext x
    rw [List.mem_toFinset, List.mem_toFinset]
    exact keysA_build_iff_events data hres x
  have h2 := List.toFinset_card_of_nodup (build_keys_nodup data)
  have h3 := List.toFinset_card_of_nodup hend
  rw [h1, h3] at h2
  exact h2.symm

theorem sum_ind_zero (v : String) :
    ∀ (L : List (String × String × List String)),
      (∀ t ∈ L, t.2.1 ≠ v) →
      ((L.map (fun t => if t.2.1 = v then t.2.2.length else 0)).sum) = 0 := by
  intro L
  induction L with
  | nil => intro _; rfl
  | cons t rest ih =>
    intro h
    rw [List.map_cons, List.sum_cons, if_neg (h t (List.mem_cons_self _ _)),
      ih (fun t' ht' => h t' (List.mem_cons_of_mem _ ht'))]

theorem sum_ind_unique (v : String) :
    ∀ (L : List (String × String × List String)),
      ((L.map (fun t => t.2.1)).Nodup) →
      ∀ t₀ ∈ L, t₀.2.1 = v →
      ((L.map (fun t => if t.2.1 = v then t.2.2.length else 0)).sum) = t₀.2.2.length := by
  intro L
  induction L with
  | nil => intro _ t₀ ht₀; simp at ht₀
  | cons t rest ih =>
    intro hnd t₀ ht₀ hv
    rw [List.map_cons, List.nodup_cons] at hnd
    rw [List.map_cons, List.sum_cons]
    rcases List.mem_cons.mp ht₀ with rfl | ht₀'
    · rw [if_pos hv]
      have : ∀ t' ∈ rest, t'.2.1 ≠ v := by
        intro t' ht' hcon
        exact hnd.1 (hv ▸ hcon ▸ List.mem_map_of_mem (fun t => t.2.1) ht')
      rw [sum_ind_zero v rest this]
      omega
    · have hne : t.2.1 ≠ v := by
        intro hcon
        refine hnd.1 ?_
        rw [hcon, ← hv]
        exact List.mem_map_of_mem (fun t => t.2.1) ht₀'
      rw [if_neg hne, ih hnd.2 t₀ ht₀' hv]
      omega

/-- Total in-degree of an event in the built graph: the length of its own
parent list (event names globally distinct). -/
theorem totN_build_of_entry (data : Model) (hend : (eventsM data).Nodup)
    {t : String × String × List String} (ht : t ∈ entriesM data) :
    totN (build_event_graph data) t.2.1 = t.2.2.length := by
  rw [totN_eq_valCount _ (build_keys_nodup data), valCount_build]
  exact sum_ind_unique t.2.1 (entriesM data) hend t ht rfl

/-- The model has exactly one zero-parent entry, `t₀`. -/
def UniqueRoot (data : Model) (t₀ : String × String × List String) : Prop :=
  t₀ ∈ entriesM data ∧ t₀.2.2 = [] ∧ ∀ t ∈ entriesM data, t.2.2 = [] → t = t₀

theorem find_root_of_unique (data : Model) (t₀ : String × String × List String)
    (h : UniqueRoot data t₀) : find_root data = some (t₀.2.1, t₀.1) := by
  unfold find_root
  rw [find?_eq_of_unique (fun t => t.2.2.isEmpty) (entriesM data) t₀ h.1
    (by show t₀.2.2.isEmpty = true; rw [h.2.1]; rfl)
    (fun t ht hp => h.2.2 t ht (List.isEmpty_iff.mp hp))]
  rfl

theorem initIndeg_zero_iff (data : Model)
    (hres : ∀ t ∈ entriesM data, ∀ p ∈ t.2.2, p ∈ eventsM data)
    (hend : (eventsM data).Nodup) (x : String)
    (hx : x ∈ keysA (build_event_graph data)) :
    initIndeg (build_event_graph data) x = 0 ↔
      ∃ t ∈ entriesM data, t.2.1 = x ∧ t.2.2 = [] := by
  have hev : x ∈ eventsM data := (keysA_build_iff_events data hres x).mp hx
  unfold eventsM at hev
  rw [List.mem_map] at hev
  obtain ⟨t, ht, htx⟩ := hev
  have htot := totN_build_of_entry data hend ht
  rw [htx] at htot
  rw [initIndeg_eq_totN _ (build_keys_nodup data)]
  constructor
  · intro h0
    have hz : totN (build_event_graph data) x = 0 := by exact_mod_cast h0
    rw [htot] at hz
    exact ⟨t, ht, htx, List.length_eq_zero.mp hz⟩
  · rintro ⟨t', ht', htx', hps'⟩
    have ht't : t' = t :=
      eq_of_mem_of_nodup_map (entriesM data) (fun t => t.2.1) hend t' ht' t ht
        (by show t'.2.1 = t.2.1; rw [htx, htx'])
    subst ht't
    rw [htot, hps']
    simp

theorem filter_eq_single {l : List String} (p : String → Bool) (r : String) :
    l.Nodup → r ∈ l → (∀ x ∈ l, p x = true ↔ x = r) → l.filter p = [r] := by
  induction l with
  | nil => intro _ hr; simp at hr
  | cons a rest ih =>
    intro hnd hr hiff
    have hnd' := List.nodup_cons.mp hnd
    by_cases hp : p a = true
    · rw [List.filter_cons_of_pos hp]
      have ha : a = r := (hiff a (List.mem_cons_self _ _)).mp hp
      subst ha
      have hnil : rest.filter p = [] := by
        rw [List.filter_eq_nil_iff]
        intro x hx hpx
        exact hnd'.1 (((hiff x (List.mem_cons_of_mem _ hx)).mp hpx) ▸ hx)
      rw [hnil]
    · rw [List.filter_cons_of_neg hp]
      have hr' : r ∈ rest := by
        rcases List.mem_cons.mp hr with rfl | h
        · exact absurd ((hiff r (List.mem_cons_self _ _)).mpr rfl) hp
        · exact h
      exact ih hnd'.2 hr' (fun x hx => hiff x (List.mem_cons_of_mem _ hx))

theorem initQueue_eq_root (data : Model)
    (hres : ∀ t ∈ entriesM data, ∀ p ∈ t.2.2, p ∈ eventsM data)
    (hend : (eventsM data).Nodup) (t₀ : String × String × List String)
    (hroot : UniqueRoot data t₀) :
    initQueue (build_event_graph data) = [t₀.2.1] := by
  unfold initQueue
  refine filter_eq_single _ t₀.2.1 (build_keys_nodup data) ?_ ?_
  · rw [mem_keysA_build]
    exact Or.inl ⟨t₀, hroot.1, rfl⟩
  · intro x hx
    rw [decide_eq_true_iff]
    rw [initIndeg_zero_iff data hres hend x hx]
    constructor
    · rintro ⟨t, ht, htx, hps⟩
      rw [← htx, hroot.2.2 t ht hps]
    · rintro rfl
      exact ⟨t₀, hroot.1, rfl, hroot.2.1⟩

theorem compute_error_cyclic (data : Model)
    (h : (kahnOrder (build_event_graph data)).length ≠
      (keysA (build_event_graph data)).length) :
    compute_vector_clock data = Except.error CVCError.cyclicHistory := by
  simp only [compute_vector_clock, kahns_algorithm]
  rw [if_pos h]

theorem compute_complete_cases (data : Model)
    (h : (kahnOrder (build_event_graph data)).length =
      (keysA (build_event_graph data)).length) :
    compute_vector_clock data =
      (match find_root data with
        | none => Except.error CVCError.noRoot
        | some rt =>
          assignClocks data data.length ((kahnOrder (build_event_graph data)).drop 1)
            [(rt.1, (List.replicate data.length 0).set (branchIdx data rt.2) 1)]) := by
  simp only [compute_vector_clock, kahns_algorithm]
  rw [if_neg (not_not_intro h)]

theorem branch_mem_of_entry {data : Model} {t : String × String × List String}
    (ht : t ∈ entriesM data) : t.1 ∈ data.map (fun b => b.1) := by
  unfold entriesM at ht
  rw [List.mem_flatMap] at ht
  obtain ⟨b, hb, hmem⟩ := ht
  rw [List.mem_map] at hmem
  obtain ⟨ep, -, heq⟩ := hmem
  rw [← heq]
  exact List.mem_map_of_mem _ hb

theorem branchIdx_lt_length {data : Model} {bn : String}
    (h : bn ∈ data.map (fun b => b.1)) : branchIdx data bn < data.length := by
  unfold branchIdx
  have hex : ∃ x ∈ data.map (fun b => b.1), (fun x => x == bn) x = true :=
    ⟨bn, h, by simp⟩
  have hlt := List.findIdx_lt_length_of_exists hex
  rw [List.length_map] at hlt
  exact hlt

/-- Full success-and-monotonicity statement for a well-formed model: the
computation succeeds, and along every model edge `parent → child` the child's
clock dominates the parent's, strictly at the child's branch index. -/
theorem compute_vector_clock_monotone (data : Model)
    (hres : ∀ t ∈ entriesM data, ∀ p ∈ t.2.2, p ∈ eventsM data)
    (hend : (eventsM data).Nodup)
    (hroot : ∃ t₀ ∈ entriesM data, t₀.2.2 = [] ∧
      ∀ t ∈ entriesM data, t.2.2 = [] → t = t₀)
    (hacyc : ∀ x, ¬ Relation.TransGen
      (fun a b => b ∈ lookupE (build_event_graph data) a) x x) :
    ∃ cl, compute_vector_clock data = Except.ok cl ∧
      ∀ b ∈ data, ∀ ep ∈ b.2, ∀ p ∈ ep.2, ∃ ce cp,
        lookupA cl ep.1 = some ce ∧ lookupA cl p = some cp ∧
        ce.length = data.length ∧ cp.length = data.length ∧
        (∀ i, i < data.length → cp.getD i 0 ≤ ce.getD i 0) ∧
        cp.getD (branchIdx data b.1) 0 < ce.getD (branchIdx data b.1) 0 := by
  obtain ⟨t₀, ht₀, hps₀, huniq⟩ := hroot
  have hknd := build_keys_nodup data
  have hval := build_val_keys data
  obtain ⟨hP1, hP2, hP3, -⟩ := kahnOrder_spec (build_event_graph data) hknd hval
  have hcomplete := mem_kahnOrder_of_acyclic (build_event_graph data) hknd hval hacyc
  have hlen : (kahnOrder (build_event_graph data)).length =
      (keysA (build_event_graph data)).length := by
    have h1 := length_le_of_nodup_subset hP1 hknd hP2
    have h2 := length_le_of_nodup_subset hknd hP1 hcomplete
    omega
  have hq := initQueue_eq_root data hres hend t₀ ⟨ht₀, hps₀, huniq⟩
  obtain ⟨tail, htopo⟩ := kahnOrder_head (build_event_graph data) hq
  have hfr := find_root_of_unique data t₀ ⟨ht₀, hps₀, huniq⟩
  have hcomp := compute_complete_cases data hlen
  rw [hfr] at hcomp
  have hdrop : (kahnOrder (build_event_graph data)).drop 1 = tail := by
    rw [htopo]
    rfl
  rw [hdrop] at hcomp
  set m₀ : AList (List Int) :=
    [(t₀.2.1, (List.replicate data.length 0).set (branchIdx data t₀.1) 1)] with hm₀
  have hm0len : ∀ x c, lookupA m₀ x = some c → c.length = data.length := by
    intro x c h
    rw [hm₀, lookupA_cons] at h
    by_cases hx : t₀.2.1 = x
    · rw [if_pos hx] at h
      rw [Option.some.injEq] at h
      rw [← h]
      rw [List.length_set, List.length_replicate]
    · rw [if_neg hx] at h
      exact Option.noConfusion h
  have htopond : (t₀.2.1 :: tail).Nodup := htopo ▸ hP1
  have htailnd : tail.Nodup := (List.nodup_cons.mp htopond).2
  have hrtail : t₀.2.1 ∉ tail := (List.nodup_cons.mp htopond).1
  have hfresh : ∀ e ∈ tail, lookupA m₀ e = none := by
    intro e he
    rw [hm₀, lookupA_cons]
    have : t₀.2.1 ≠ e := fun hh => hrtail (hh ▸ he)
    rw [if_neg this]
    rfl
  have hentry_of_tail : ∀ e ∈ tail, ∃ t ∈ entriesM data, t.2.1 = e := by
    intro e he
    have hkey : e ∈ keysA (build_event_graph data) :=
      hP2 e (htopo ▸ List.mem_cons_of_mem _ he)
    have hev := (keysA_build_iff_events data hres e).mp hkey
    unfold eventsM at hev
    rw [List.mem_map] at hev
    obtain ⟨t, ht, htx⟩ := hev
    exact ⟨t, ht, htx⟩
  have hbr : ∀ e ∈ tail, ∃ b, findBranchOf data e = some b ∧
      branchIdx data b < data.length := by
    intro e he
    obtain ⟨t, ht, htx⟩ := hentry_of_tail e he
    subst htx
    refine ⟨t.1, (get_parents_of_unique hend ht).2, ?_⟩
    exact branchIdx_lt_length (branch_mem_of_entry ht)
  have hpar : ∀ k e, tail.get? k = some e → ∀ p ∈ get_parents data e,
      (lookupA m₀ p).isSome = true ∨ ∃ j, j < k ∧ tail.get? j = some p := by
    intro k e hk p hp
    obtain ⟨t, ht, htx⟩ := hentry_of_tail e (List.mem_iff_get?.mpr ⟨k, hk⟩)
    subst htx
    rw [(get_parents_of_unique hend ht).1] at hp
    have hedge : t.2.1 ∈ lookupE (build_event_graph data) p :=
      (mem_lookupE_build data p t.2.1).mpr ⟨t, ht, rfl, hp⟩
    have hkv : (kahnOrder (build_event_graph data)).get? (k + 1) = some t.2.1 := by
      rw [htopo]
      exact hk
    obtain ⟨j, hj, hgj⟩ := hP3 (k + 1) t.2.1 hkv p hedge
    cases j with
    | zero =>
      left
      rw [htopo] at hgj
      have hpr : p = t₀.2.1 := by
        have hred : (t₀.2.1 :: tail).get? 0 = some t₀.2.1 := rfl
        rw [hred] at hgj
        exact (Option.some.inj hgj).symm
      rw [hm₀, hpr, lookupA_cons, if_pos rfl]
      rfl
    | succ j' =>
      right
      refine ⟨j', by omega, ?_⟩
      rw [htopo] at hgj
      exact hgj
  obtain ⟨mf, hok, hext, hlenf, hper⟩ :=
    assignClocks_spec data data.length tail m₀ hm0len htailnd hfresh hbr hpar
  have hcomp' : compute_vector_clock data = assignClocks data data.length tail m₀ := by
    rw [hcomp, hm₀]
  rw [hok] at hcomp'
  refine ⟨mf, hcomp', ?_⟩
  intro b hb ep hep p hp
  have htE : (b.1, ep.1, ep.2) ∈ entriesM data := mem_entriesM hb hep
  have hgp : get_parents data ep.1 = ep.2 := (get_parents_of_unique hend htE).1
  have hfb : findBranchOf data ep.1 = some b.1 := (get_parents_of_unique hend htE).2
  have hetail : ep.1 ∈ tail := by
    have hkey : ep.1 ∈ keysA (build_event_graph data) :=
      (keysA_build_iff_events data hres ep.1).mpr (mem_eventsM_of_entry htE)
    have := hcomplete ep.1 hkey
    rw [htopo] at this
    rcases List.mem_cons.mp this with heq | hmem
    · exfalso
      have : (b.1, ep.1, ep.2) = t₀ :=
        eq_of_mem_of_nodup_map (entriesM data) (fun t => t.2.1) hend _ htE t₀ ht₀
          (by show ep.1 = t₀.2.1; exact heq)
      have hps : ep.2 = [] := by
        rw [show ep.2 = (b.1, ep.1, ep.2).2.2 from rfl, this, hps₀]
      rw [hps] at hp
      simp at hp
    · exact hmem
  obtain ⟨ce, cp, hce, hcp, hmono, hstrict⟩ := hper ep.1 hetail p (hgp ▸ hp)
  exact ⟨ce, cp, hce, hcp, hlenf _ _ hce, hlenf _ _ hcp, hmono, hstrict b.1 hfb⟩

/-! ## Remaining bridging lemmas for the claim statements -/

/-- Chains over any sub-relation of a transitively closed map collapse to a
single edge of the map. -/
theorem transGen_sub_imp_edge (E D : EdgeMap)
    (hsub : ∀ u v, v ∈ lookupE D u → v ∈ lookupE E u)
    (htr : ∀ u v w, v ∈ lookupE E u → w ∈ lookupE E v → w ∈ lookupE E u)
    {u v : String}
    (h : Relation.TransGen (fun a b => b ∈ lookupE D a) u v) :
    v ∈ lookupE E u := by
  induction h with
  | single h1 => exact hsub _ _ h1
  | tail _ h2 ih => exact htr _ _ _ ih (hsub _ _ h2)

/-- If Kahn's algorithm orders every key, the graph has no directed cycle. -/
theorem acyclic_of_complete (g : EdgeMap) (hknd : (keysA g).Nodup)
    (hval : ∀ kv ∈ g, ∀ v ∈ kv.2, v ∈ keysA g)
    (hcomp : ∀ y ∈ keysA g, y ∈ kahnOrder g) :
    ∀ x, ¬ Relation.TransGen (fun a b => b ∈ lookupE g a) x x := by
  intro x hcyc
  have hx : x ∈ keysA g := by
    rcases transGen_head_cases hcyc with h | ⟨c, hc, -⟩
    · exact mem_lookupE_key h
    · exact mem_lookupE_key hc
  exact not_mem_kahnOrder_of_cycle g hknd (wf_of_entries hval) hcyc (hcomp x hx)

/-- `next(branch for branch in data if event in data[branch])` fails
(`StopIteration`) on an identifier that is no event of the model. -/
theorem findBranchOf_none (data : Model) (p : String) (h : p ∉ eventsM data) :
    findBranchOf data p = none := by
  unfold findBranchOf
  have hf : (entriesM data).find? (fun t => t.2.1 == p) = none := by
    rw [List.find?_eq_none]
    intro t ht hbeq
    exact h ((eq_of_beq hbeq) ▸ mem_eventsM_of_entry ht)
  rw [hf]
  rfl

/-- A successful `find_root` names an actual entry of the model with an
empty parent list. -/
theorem find_root_sound (data : Model) (rt : String × String)
    (h : find_root data = some rt) :
    ∃ t₀ ∈ entriesM data, t₀.2.1 = rt.1 ∧ t₀.1 = rt.2 ∧ t₀.2.2 = [] := by
  unfold find_root at h
  rcases hf : (entriesM data).find? (fun t => t.2.2.isEmpty) with _ | t₀
  · rw [hf] at h
    exact Option.noConfusion h
  · rw [hf, Option.map_some', Option.some.injEq] at h
    have hmem := List.mem_of_find?_eq_some hf
    have hpred0 := List.find?_some hf
    have hpred : t₀.2.2.isEmpty = true := hpred0
    refine ⟨t₀, hmem, by rw [← h], by rw [← h], ?_⟩
    rwa [List.isEmpty_iff] at hpred

/-- Inversion of a successful run of `compute_vector_clock`: the topological
order was complete, a root was found, and the assignment loop succeeded. -/
theorem compute_ok_inv (data : Model) (cl : AList (List Int))
    (h : compute_vector_clock data = Except.ok cl) :
    (kahnOrder (build_event_graph data)).length =
        (keysA (build_event_graph data)).length ∧
      ∃ rt, find_root data = some rt ∧
        assignClocks data data.length
          ((kahnOrder (build_event_graph data)).drop 1)
          [(rt.1, (List.replicate data.length 0).set (branchIdx data rt.2) 1)] =
          Except.ok cl := by
  by_cases hlen : (kahnOrder (build_event_graph data)).length =
      (keysA (build_event_graph data)).length
  · refine ⟨hlen, ?_⟩
    have hcc := compute_complete_cases data hlen
    rw [h] at hcc
    rcases hfr : find_root data with _ | rt
    · rw [hfr] at hcc
      exact Except.noConfusion hcc
    · rw [hfr] at hcc
      exact ⟨rt, rfl, hcc.symm⟩
  · rw [compute_error_cyclic data hlen] at h
    exact Except.noConfusion h

/-! ## Concrete inputs used by the claim witnesses -/

/-- A transitively closed three-node chain `a → b → c` (with shortcut `a → c`). -/
def E1 : EdgeMap := [("a", ["b", "c"]), ("b", ["c"]), ("c", [])]

/-- The same closed chain, for the minimality claim. -/
def E2 : EdgeMap := [("a", ["b", "c"]), ("b", ["c"]), ("c", [])]

/-- The spec's concrete model `{"b1": {"e1": [], "e2": ["e1"]}, "b2": {"e3": ["e1"]}}`. -/
def M9 : Model := [("b1", [("e1", []), ("e2", ["e1"])]), ("b2", [("e3", ["e1"])])]

/-- The vector clocks the spec expects for `M9`, as a lookup function. -/
def cl9 : String → List Int :=
  fun x => (lookupA [("e1", ([1, 0] : List Int)), ("e2", [2, 0]), ("e3", [1, 1])] x).getD []

/-- The full causal edge set built from the `M9` clocks. -/
def E9 : EdgeMap := build_causal_edges ["e1", "e2", "e3"] cl9

/-- Clocks for the closure witness: `a ↦ [0,1]`, `b ↦ [0,2]`, `c ↦ [0,3]`. -/
def cl5 : String → List Int :=
  fun x => (lookupA [("a", ([0, 1] : List Int)), ("b", [0, 2]), ("c", [0, 3])] x).getD []

/-- A model whose two events are each other's parents (`A ↔ B`). -/
def Mcyc : Model := [("b", [("A", ["B"]), ("B", ["A"])])]

/-- A model whose event `A` references the nonexistent parent `ghost`. -/
def Mghost : Model := [("b1", [("r", []), ("A", ["r", "ghost"])])]

/-- A model with a duplicated event name `c`, whose second copy references a
nonexistent parent. -/
def MghostDup : Model := [("b1", [("c", [])]), ("b2", [("c", ["ghost"])])]

/-- A two-node directed cycle, for the termination witness. -/
def Ecyc : EdgeMap := [("a", ["b"]), ("b", ["a"])]

/-! ## Claim theorems -/

/-- Claim C1: on every edge mapping that is the transitive closure of a finite
DAG (keys closed under edges, transitively closed, irreflexive), for every
pair `(u, v)`, `v` is reachable from `u` via one or more edges of the mapping
returned by `reduce_transitive_edges` if and only if the edge `u → v` is in
the input mapping. -/
theorem C1_reachability_preservation (E : EdgeMap)
    (hwf : ∀ kv ∈ E, ∀ v ∈ kv.2, v ∈ keysA E)
    (htr : ∀ u ∈ keysA E, ∀ v ∈ lookupE E u, ∀ w ∈ lookupE E v, w ∈ lookupE E u)
    (hirr : ∀ u ∈ keysA E, u ∉ lookupE E u) :
    ∀ u v,
      Relation.TransGen (fun a b => b ∈ lookupE (reduce_transitive_edges E) a) u v ↔
        v ∈ lookupE E u := by
  intro u v
  exact ⟨transGen_reduce_imp_edge E (trans_of_bounded htr),
    fun h => transGen_reduce_of_edge E (wf_of_entries hwf) (trans_of_bounded htr)
      (irrefl_of_bounded hirr) u v h⟩

/-- Witness for C1: on the closed chain `E1`, `c` is reachable from `a`
through the reduced edges alone. -/
theorem C1_witness :
    Relation.TransGen (fun a b => b ∈ lookupE (reduce_transitive_edges E1) a) "a" "c" :=
  (C1_reachability_preservation E1 (by decide) (by decide) (by decide) "a" "c").mpr
    (by decide)

/-- Claim C2: on every transitive closure of a finite DAG the reduced mapping
is minimal (dropping any single reduced edge `u → v` destroys the `u ⇝ v`
path) and is contained in every reachability-preserving sub-mapping, making
it the unique transitive reduction. -/
theorem C2_minimality (E : EdgeMap)
    (hwf : ∀ kv ∈ E, ∀ v ∈ kv.2, v ∈ keysA E)
    (htr : ∀ u ∈ keysA E, ∀ v ∈ lookupE E u, ∀ w ∈ lookupE E v, w ∈ lookupE E u)
    (hirr : ∀ u ∈ keysA E, u ∉ lookupE E u) :
    (∀ u v, v ∈ lookupE (reduce_transitive_edges E) u →
      ¬ Relation.TransGen
        (fun a b => b ∈ lookupE (reduce_transitive_edges E) a ∧ ¬(a = u ∧ b = v))
        u v) ∧
    ∀ D : EdgeMap,
      (∀ u v, v ∈ lookupE D u → v ∈ lookupE E u) →
      (∀ u v, v ∈ lookupE E u →
        Relation.TransGen (fun a b => b ∈ lookupE D a) u v) →
      ∀ u v, v ∈ lookupE (reduce_transitive_edges E) u → v ∈ lookupE D u := by
  have hwf' := wf_of_entries hwf
  have htr' := trans_of_bounded htr
  have hirr' := irrefl_of_bounded hirr
  constructor
  · intro u v hred hpath
    obtain ⟨hEuv, hcov⟩ := (mem_reduce_iff_cover E hwf' htr' u v).mp hred
    rcases transGen_head_cases hpath with ⟨-, hne⟩ | ⟨c, ⟨hc, hne⟩, hrest⟩
    · exact hne ⟨rfl, rfl⟩
    · have hcv : c ≠ v := fun h => hne ⟨rfl, h⟩
      have hcE : c ∈ lookupE E u := ((mem_reduce_iff E u c).mp hc).2.1
      have hrest' : Relation.TransGen
          (fun a b => b ∈ lookupE (reduce_transitive_edges E) a) c v :=
        Relation.TransGen.mono (fun a b hb => hb.1) hrest
      exact hcov ⟨c, hcE, hcv, transGen_reduce_imp_edge E htr' hrest'⟩
  · intro D hsub hreach u v hred
    obtain ⟨hEuv, hcov⟩ := (mem_reduce_iff_cover E hwf' htr' u v).mp hred
    rcases transGen_head_cases (hreach u v hEuv) with h | ⟨c, hc, hrest⟩
    · exact h
    · by_cases hcveq : c = v
      · exact hcveq ▸ hc
      · exact absurd ⟨c, hsub _ _ hc, hcveq, transGen_sub_imp_edge E D hsub htr' hrest⟩ hcov

/-- Witness for C2: in the reduced chain, no path from `a` to `b` survives
once the reduced edge `a → b` itself is forbidden. -/
theorem C2_witness :
    ¬ Relation.TransGen
      (fun a b => b ∈ lookupE (reduce_transitive_edges E2) a ∧ ¬(a = "a" ∧ b = "b"))
      "a" "b" :=
  (C2_minimality E2 (by decide) (by decide) (by decide)).1 "a" "b" (by decide)

/-- Claim C3: for equal-length integer clocks the comparator returns `true`
exactly when every component satisfies `A[i] ≤ B[i]` and some component
satisfies `A[i] < B[i]`; it is irreflexive, and `precedes A B` forces
`¬ precedes B A`. -/
theorem C3_comparator (A B C : List Int) (h : A.length = B.length) :
    (is_causally_before A B = true ↔
      (∀ i, i < A.length → A.getD i 0 ≤ B.getD i 0) ∧
        ∃ i, i < A.length ∧ A.getD i 0 < B.getD i 0) ∧
    is_causally_before C C = false ∧
    (is_causally_before A B = true → is_causally_before B A = false) :=
  ⟨is_causally_before_iff A B h, is_causally_before_self C,
    fun hab => is_causally_before_antisymm h hab⟩

/-- Witness for C3 at `A = [1,0]`, `B = [2,1]`, `C = [0,0]`. -/
theorem C3_witness : is_causally_before [2, 1] [1, 0] = false :=
  (C3_comparator [1, 0] [2, 1] [0, 0] rfl).2.2 (by decide)

/-- Claim C4: for every well-formed model (all parent references resolvable,
globally distinct event names, a unique parentless root event, acyclic event
graph), `compute_vector_clock` succeeds and along every parent → child edge of
the model the child's clock dominates the parent's componentwise, strictly at
the child's own branch index. -/
theorem C4_clock_monotonicity (data : Model)
    (hres : ∀ t ∈ entriesM data, ∀ p ∈ t.2.2, p ∈ eventsM data)
    (hend : (eventsM data).Nodup)
    (hroot : ∃ t₀ ∈ entriesM data, t₀.2.2 = [] ∧
      ∀ t ∈ entriesM data, t.2.2 = [] → t = t₀)
    (hacyc : ∀ x, ¬ Relation.TransGen
      (fun a b => b ∈ lookupE (build_event_graph data) a) x x) :
    ∃ cl, compute_vector_clock data = Except.ok cl ∧
      ∀ b ∈ data, ∀ ep ∈ b.2, ∀ p ∈ ep.2, ∃ ce cp,
        lookupA cl ep.1 = some ce ∧ lookupA cl p = some cp ∧
        ce.length = data.length ∧ cp.length = data.length ∧
        (∀ i, i < data.length → cp.getD i 0 ≤ ce.getD i 0) ∧
        cp.getD (branchIdx data b.1) 0 < ce.getD (branchIdx data b.1) 0 :=
  compute_vector_clock_monotone data hres hend hroot hacyc

/-- Witness for C4 on the spec's concrete model `M9`. -/
theorem C4_witness :
    ∃ cl, compute_vector_clock M9 = Except.ok cl ∧
      ∀ b ∈ M9, ∀ ep ∈ b.2, ∀ p ∈ ep.2, ∃ ce cp,
        lookupA cl ep.1 = some ce ∧ lookupA cl p = some cp ∧
        ce.length = M9.length ∧ cp.length = M9.length ∧
        (∀ i, i < M9.length → cp.getD i 0 ≤ ce.getD i 0) ∧
        cp.getD (branchIdx M9 b.1) 0 < ce.getD (branchIdx M9 b.1) 0 :=
  C4_clock_monotonicity M9 (by decide) (by decide) (by decide)
    (acyclic_of_complete (build_event_graph M9) (by decide) (by decide) (by decide))

/-- Claim C5: for every node list and clock mapping assigning equal-length
clocks, the edge mapping produced by `build_causal_edges` is transitively
closed. -/
theorem C5_closure (nodes : List String) (cl : String → List Int) (n : Nat)
    (hlen : ∀ x ∈ nodes, (cl x).length = n) :
    ∀ u v w, v ∈ lookupE (build_causal_edges nodes cl) u →
      w ∈ lookupE (build_causal_edges nodes cl) v →
      w ∈ lookupE (build_causal_edges nodes cl) u := by
  intro u v w huv hvw
  rw [mem_build_causal_edges] at huv hvw ⊢
  obtain ⟨hu, hv, h1⟩ := huv
  obtain ⟨-, hw, h2⟩ := hvw
  exact ⟨hu, hw, is_causally_before_trans
    (by rw [hlen u hu, hlen v hv]) (by rw [hlen v hv, hlen w hw]) h1 h2⟩

/-- Witness for C5: with clocks `a=[0,1], b=[0,2], c=[0,3]` the composed edge
`a → c` is present. -/
theorem C5_witness : "c" ∈ lookupE (build_causal_edges ["a", "b", "c"] cl5) "a" :=
  C5_closure ["a", "b", "c"] cl5 2 (by decide) "a" "b" "c" (by decide) (by decide)

/-- Claim C6: whenever the built event graph has a directed cycle,
`compute_vector_clock` fails with the cyclic-history error and returns no
partial clock mapping. -/
theorem C6_cycle_error (data : Model) (x : String)
    (hcyc : Relation.TransGen
      (fun a b => b ∈ lookupE (build_event_graph data) a) x x) :
    compute_vector_clock data = Except.error CVCError.cyclicHistory := by
  have hknd := build_keys_nodup data
  have hval := build_val_keys data
  have hxk : x ∈ keysA (build_event_graph data) := by
    rcases transGen_head_cases hcyc with h | ⟨c, hc, -⟩
    · exact mem_lookupE_key h
    · exact mem_lookupE_key hc
  have hno := not_mem_kahnOrder_of_cycle (build_event_graph data) hknd hval hcyc
  refine compute_error_cyclic data ?_
  intro hlen
  exact hno (mem_kahnOrder_of_complete (build_event_graph data) hknd hval hlen x hxk)

/-- Witness for C6 on the two-event parent cycle `A ↔ B`. -/
theorem C6_witness : compute_vector_clock Mcyc = Except.error CVCError.cyclicHistory :=
  C6_cycle_error Mcyc "A"
    (Relation.TransGen.head
      (show "B" ∈ lookupE (build_event_graph Mcyc) "A" by decide)
      (Relation.TransGen.single
        (show "A" ∈ lookupE (build_event_graph Mcyc) "B" by decide)))

/-- Claim C7 (corrected): when event names are globally distinct across
branches, a model containing an event with an unresolvable parent reference
makes `compute_vector_clock` fail (with some error), returning no partial
clock mapping. Without the distinctness proviso the original claim is false,
see the counterexample. -/
theorem C7_ghost_parent (data : Model)
    (hend : (eventsM data).Nodup)
    (hghost : ∃ t ∈ entriesM data, ∃ p ∈ t.2.2, p ∉ eventsM data) :
    ∃ err, compute_vector_clock data = Except.error err := by
  rcases hc : compute_vector_clock data with err | cl
  · exact ⟨err, rfl⟩
  · exfalso
    obtain ⟨t, ht, p, hp, hpno⟩ := hghost
    obtain ⟨hlen, rt, hfr, hok⟩ := compute_ok_inv data cl hc
    have hknd := build_keys_nodup data
    have hval := build_val_keys data
    obtain ⟨-, -, hP3, -⟩ := kahnOrder_spec (build_event_graph data) hknd hval
    have hcomplete := mem_kahnOrder_of_complete (build_event_graph data) hknd hval hlen
    have hedge : t.2.1 ∈ lookupE (build_event_graph data) p :=
      (mem_lookupE_build data p t.2.1).mpr ⟨t, ht, rfl, hp⟩
    have hck : t.2.1 ∈ keysA (build_event_graph data) :=
      (mem_keysA_build data t.2.1).mpr (Or.inl ⟨t, ht, rfl⟩)
    obtain ⟨k, hk⟩ := List.mem_iff_get?.mp (hcomplete t.2.1 hck)
    obtain ⟨j, hj, -⟩ := hP3 k t.2.1 hk p hedge
    have hmem : t.2.1 ∈ (kahnOrder (build_event_graph data)).drop 1 := by
      refine List.mem_iff_get?.mpr ⟨k - 1, ?_⟩
      rw [List.get?_drop, show 1 + (k - 1) = k by omega]
      exact hk
    obtain ⟨t₀, ht₀, hname, -, -⟩ := find_root_sound data rt hfr
    have hrte : rt.1 ∈ eventsM data := hname ▸ mem_eventsM_of_entry ht₀
    have hgp : get_parents data t.2.1 = t.2.2 := (get_parents_of_unique hend ht).1
    obtain ⟨-, hpar⟩ := assignClocks_ok_facts data data.length _ _ cl hok t.2.1 hmem
    have hptail : p ∈ (kahnOrder (build_event_graph data)).drop 1 := by
      rcases hpar p (hgp ▸ hp) with hcase | hcase
      · exfalso
        rw [lookupA_cons] at hcase
        by_cases hpr : rt.1 = p
        · exact hpno (hpr ▸ hrte)
        · rw [if_neg hpr] at hcase
          simp [lookupA_nil] at hcase
      · exact hcase
    obtain ⟨hbr, -⟩ := assignClocks_ok_facts data data.length _ _ cl hok p hptail
    rw [findBranchOf_none data p hpno] at hbr
    exact absurd hbr (by decide)

/-- Witness for C7 on a model whose event `A` references the ghost parent. -/
theorem C7_witness : ∃ err, compute_vector_clock Mghost = Except.error err :=
  C7_ghost_parent Mghost (by decide) (by decide)

/-- Counterexample to the original C7: with a duplicated event name the ghost
parent of the second copy is shadowed by the first-branch lookup, and
`compute_vector_clock` returns a (partial) clock map instead of failing. -/
theorem C7_counterexample :
    (∃ t ∈ entriesM MghostDup, ∃ p ∈ t.2.2, p ∉ eventsM MghostDup) ∧
    compute_vector_clock MghostDup = Except.ok [("c", [1, 0])] :=
  ⟨by decide, rfl⟩

/-- Claim C8 (refuted, code bug): `causally_precedes` in `task1_23/Build_G.py`
computes the REVERSE of `is_causally_before` in `src/graph/builder.py` — its
comparisons are inverted relative to its variable names — so the two
"duplicate" implementations disagree on equal-length clocks. -/
theorem C8_duplicate_divergence :
    (∀ A B : List Int, causally_precedes A B = is_causally_before B A) ∧
    ¬ ∀ A B : List Int, A.length = B.length →
        causally_precedes A B = is_causally_before A B := by
  refine ⟨causally_precedes_eq_reverse, fun h => ?_⟩
  have hx := h [1, 0] [2, 1] rfl
  rw [causally_precedes_eq_reverse] at hx
  exact absurd hx (by decide)

/-- Counterexample for C8: on `A = [1,0]`, `B = [2,1]` the two comparators
return different booleans. -/
theorem C8_counterexample :
    causally_precedes [1, 0] [2, 1] = false ∧
    is_causally_before [1, 0] [2, 1] = true := by decide

/-- Claim C9: on the concrete model `M9`, `compute_vector_clock` returns
exactly `e1 = [1,0]`, `e2 = [2,0]`, `e3 = [1,1]`; `build_causal_edges` on
those clocks yields the single non-empty adjacency `e1 → [e2, e3]`; and
`reduce_transitive_edges` leaves that edge set unchanged. -/
theorem C9_concrete_scenario :
    compute_vector_clock M9 =
      Except.ok [("e1", [1, 0]), ("e2", [2, 0]), ("e3", [1, 1])] ∧
    E9 = [("e1", ["e2", "e3"]), ("e2", []), ("e3", [])] ∧
    reduce_transitive_edges E9 = E9 :=
  ⟨rfl, rfl, by decide⟩

/-- Claim C10: on every finite edge mapping whose targets are keys,
`compute_reachability` is stable under any recursion budget of at least
`|keys| + 1` (the visited set, not the budget, stops the recursion — so the
traversal terminates even on cyclic, non-closed inputs), and each per-source
visited list contains no duplicates (every node is visited at most once). -/
theorem C10_termination (E : EdgeMap)
    (hwf : ∀ kv ∈ E, ∀ v ∈ kv.2, v ∈ keysA E) :
    (∀ f, (keysA E).length + 1 ≤ f →
      computeReachabilityFuel f E = compute_reachability E) ∧
    ∀ u r, (u, r) ∈ compute_reachability E → r.Nodup := by
  refine ⟨fun f hf => computeReachabilityFuel_stable E (wf_of_entries hwf) f hf, ?_⟩
  intro u r hur
  unfold compute_reachability at hur
  rw [List.mem_map] at hur
  obtain ⟨x, -, hx⟩ := hur
  have hx' : (x, dfs E ((keysA E).length + 1) x []) = (u, r) := hx
  rw [Prod.mk.injEq] at hx'
  rw [← hx'.2]
  exact dfs_nodup E ((keysA E).length + 1) x [] List.nodup_nil

/-- Witness for C10 on the two-node cycle `Ecyc`: a larger budget gives the
same reachability map. -/
theorem C10_witness : computeReachabilityFuel 10 Ecyc = compute_reachability Ecyc :=
  (C10_termination Ecyc (by decide)).1 10 (by decide)

end FDS
